import Mathlib

/-!
# Verification of the SCEWL controller (TAMU eCTF 2021, Rust implementation)

Shallow embedding of the controller sources, centred on
`src/controller/scewl-rust/src/secure/crypto.rs` (the secure crypto handler)
and `src/controller/scewl-rust/src/controller.rs` (framing and dispatch).

Bytes are modelled as `Nat` (wire data is kept `< 256` by hypotheses where it
matters), buffers as `List Nat`, machine integers as `Nat` with explicit
`% 2^w` at the points where the Rust code can wrap, and panicking code paths
as `Except Unit`.  The external crypto crates (SHA-256, HMAC-SHA-256, the
AES-128 block cipher, the HC-128 generator) are not part of this repository;
they enter as parameters (`Prims`, `RngSt`) with exactly the properties the
code relies on, while CBC chaining, PKCS#7 padding and unpadding — the parts
implemented by the thin `block-modes`/`block-padding` wrappers the code
drives — are embedded concretely.
-/

deriving instance DecidableEq for Except

namespace Scewl

/-- `SCEWL_MAX_DATA_SZ` from controller.rs: `0x4000 + 0x100`. -/
def SCEWL_MAX_DATA_SZ : Nat := 0x4000 + 0x100

/-- `2^64`, the modulus of `u64`/`usize` arithmetic on the target. -/
def U64 : Nat := 2 ^ 64

/-- Little-endian (native order on the target) encoding of `n` in `k` bytes. -/
def natToLE : Nat → Nat → List Nat
  | 0, _ => []
  | k + 1, n => n % 256 :: natToLE k (n / 256)

/-- Little-endian decoding of a byte list. -/
def leToNat : List Nat → Nat
  | [] => 0
  | b :: bs => b + 256 * leToNat bs

/-- SCEWL ids (`Id` in controller.rs). -/
inductive Id where
  | Broadcast
  | SSS
  | FAA
  | Other (n : Nat)
deriving DecidableEq, Repr

/-- `impl From<u16> for Id`. -/
def Id.ofU16 (n : Nat) : Id :=
  if n = 0 then .Broadcast else if n = 1 then .SSS else if n = 2 then .FAA else .Other n

/-- `impl From<Id> for u16`. -/
def Id.toU16 : Id → Nat
  | .Broadcast => 0
  | .SSS => 1
  | .FAA => 2
  | .Other n => n

/-- In-memory message descriptor (`Message` in controller.rs). -/
structure Message where
  tgt_id : Id
  src_id : Id
  len : Nat
deriving DecidableEq, Repr

/-- `MessageHeader::to_bytes` applied to `msg.to_canonical()`: the 8 wire bytes
`S C tgt src len`, with the length truncated to `u16`. -/
def headerBytes (m : Message) : List Nat :=
  83 :: 67 :: (natToLE 2 m.tgt_id.toU16 ++ natToLE 2 m.src_id.toU16 ++ natToLE 2 m.len)

/-- Capacity of the `heapless::LinearMap<_, _, U256>` counter maps. -/
def lmCap : Nat := 256

/-- Model of `heapless::LinearMap<Id, u64, U256>`: an association list with
bounded capacity. -/
structure LMap where
  entries : List (Id × Nat)
deriving DecidableEq, Repr

/-- `LinearMap::get` (first matching entry). -/
def LMap.get (m : LMap) (k : Id) : Option Nat :=
  (m.entries.find? (fun e => e.1 == k)).map (fun e => e.2)

/-- `LinearMap::insert`: replaces the value when the key is present, appends
when there is spare capacity, and errors (the `expect` panic in crypto.rs)
when the map is full. -/
def LMap.insertE (m : LMap) (k : Id) (v : Nat) : Except Unit LMap :=
  if (m.entries.find? (fun e => e.1 == k)).isSome then
    .ok ⟨m.entries.map (fun e => if e.1 == k then (e.1, v) else e)⟩
  else if m.entries.length < lmCap then
    .ok ⟨m.entries ++ [(k, v)]⟩
  else
    .error ()

/-- Abstract models of the external crypto primitives used by
secure/crypto.rs: SHA-256, HMAC-SHA-256 (already keyed), and the AES-128
block cipher in both directions.  These live in library crates outside this
repository. -/
structure Prims where
  sha : List Nat → List Nat
  hmac : List Nat → List Nat → List Nat
  encB : List Nat → List Nat
  decB : List Nat → List Nat

/-- The facts about the primitives that the code relies on: digest sizes and
that the block cipher decryption inverts encryption on 16-byte blocks. -/
structure PrimsOk (P : Prims) : Prop where
  sha_len : ∀ x, (P.sha x).length = 32
  hmac_len : ∀ k x, (P.hmac k x).length = 32
  encB_len : ∀ b, b.length = 16 → (P.encB b).length = 16
  decB_encB : ∀ b, b.length = 16 → P.decB (P.encB b) = b

/-- Trivial instantiation of the primitives (identity block cipher, constant
digests), used to evaluate theorems at concrete inputs. -/
def idPrims : Prims :=
  ⟨fun _ => List.replicate 32 0, fun _ _ => List.replicate 32 0, id, id⟩

/-- Model of the HC-128 CSPRNG: a byte stream and a position. -/
structure RngSt where
  stream : Nat → Nat
  pos : Nat

/-- `RngCore::fill_bytes` for `n` bytes. -/
def RngSt.fill (r : RngSt) (n : Nat) : List Nat × RngSt :=
  ((List.range n).map (fun i => r.stream (r.pos + i) % 256), ⟨r.stream, r.pos + n⟩)

/-- The all-zero RNG, for concrete evaluation. -/
def zeroRng : RngSt := ⟨fun _ => 0, 0⟩

/-- State of the secure crypto handler (`secure::crypto::Handler`). -/
structure CryptoState where
  rng : RngSt
  aes_key : List Nat
  hmac_key : List Nat
  send_dm_ctr : LMap
  recv_dm_ctr : LMap
  brdcst_ctr : LMap

/-- `Handler::new`: fresh counter maps.  (The HC-128 seeding map is external;
the seeded generator is passed in directly.) -/
def CryptoState.new (rng : RngSt) (aes hmac : List Nat) : CryptoState :=
  ⟨rng, aes, hmac, ⟨[]⟩, ⟨[]⟩, ⟨[]⟩⟩

/-- The verification segment of the secure envelope. -/
structure VerificationSegment where
  iv : List Nat
  ctr : Nat
  hmac : List Nat

/-- `VerificationSegment::size()` = 16 + 8 + 32. -/
def VerificationSegment.size : Nat := 16 + 8 + 32

/-- `VerificationSegment::to_bytes`. -/
def VerificationSegment.toBytes (v : VerificationSegment) : List Nat :=
  v.iv ++ natToLE 8 v.ctr ++ v.hmac

/-- `VerificationSegment::from_bytes`. -/
def VerificationSegment.fromBytes (d : List Nat) : VerificationSegment :=
  ⟨d.take 16, leToNat ((d.drop 16).take 8), (d.drop 24).take 32⟩

/-- The header of the encrypted content section. -/
structure ContentHeader where
  sha : List Nat
  len : Nat

/-- `ContentHeader::size()` = 32 + 8 (usize is 8 bytes on the target). -/
def ContentHeader.size : Nat := 32 + 8

/-- `ContentHeader::to_bytes`. -/
def ContentHeader.toBytes (c : ContentHeader) : List Nat :=
  c.sha ++ natToLE 8 c.len

/-- `ContentHeader::from_bytes`. -/
def ContentHeader.fromBytes (d : List Nat) : ContentHeader :=
  ⟨d.take 32, leToNat ((d.drop 32).take 8)⟩

/-- In-place write of `src` into `buf` at offset `off`
(`copy_from_slice`/`copy_within` semantics, in range). -/
def writeAt (off : Nat) (src buf : List Nat) : List Nat :=
  buf.take off ++ src ++ buf.drop (off + src.length)

/-- Byte-wise xor of two equal-length byte strings. -/
def xorBytes (a b : List Nat) : List Nat :=
  List.zipWith (fun x y => x ^^^ y) a b

/-- CBC encryption over a list of 16-byte blocks, chaining from `prev`. -/
def cbcEncBlocks (encB : List Nat → List Nat) : List Nat → List (List Nat) → List (List Nat)
  | _, [] => []
  | prev, b :: bs =>
    let c := encB (xorBytes b prev)
    c :: cbcEncBlocks encB c bs

/-- CBC decryption over a list of 16-byte blocks, chaining from `prev`. -/
def cbcDecBlocks (decB : List Nat → List Nat) : List Nat → List (List Nat) → List (List Nat)
  | _, [] => []
  | prev, c :: cs => xorBytes (decB c) prev :: cbcDecBlocks decB c cs

/-- Split the first `16 * k` bytes of a list into `k` blocks of 16. -/
def toBlocks : Nat → List Nat → List (List Nat)
  | 0, _ => []
  | k + 1, l => l.take 16 :: toBlocks k (l.drop 16)

/-- `block_modes::Cbc::<Aes128, Pkcs7>::encrypt(buf, pos)`: PKCS#7-pads
`buf[..pos]` to the next strict 16-byte boundary `be`, CBC-encrypts
`buf[..be]` in place and reports length `be`; errors (and the caller's
`expect` panics) when `be` exceeds the buffer. -/
def cbcEncrypt (P : Prims) (iv buf : List Nat) (pos : Nat) : Except Unit (List Nat × Nat) :=
  if pos / 16 * 16 + 16 ≤ buf.length then
    .ok ((cbcEncBlocks P.encB iv (toBlocks ((pos / 16 * 16 + 16) / 16)
        (buf.take pos ++ List.replicate (16 - pos % 16) (16 - pos % 16)))).flatten
      ++ buf.drop (pos / 16 * 16 + 16), pos / 16 * 16 + 16)
  else
    .error ()

/-- `block_padding::Pkcs7::unpad`. -/
def pkcs7unpad (d : List Nat) : Except Unit (List Nat) :=
  match d.getLast? with
  | none => .error ()
  | some n =>
    if n = 0 ∨ d.length < n then .error ()
    else if ((d.drop (d.length - n)).take (n - 1)).all (fun v => v == n) then
      .ok (d.take (d.length - n))
    else .error ()

/-- `block_modes::Cbc::<Aes128, Pkcs7>::decrypt(buf)`: errors without touching
the buffer when the length is not a multiple of 16; otherwise decrypts in
place (first component) and unpads (second component, `none` on pad error). -/
def cbcDecrypt (P : Prims) (iv buf : List Nat) : Except Unit (List Nat × Option (List Nat)) :=
  if buf.length % 16 = 0 then
    .ok ((cbcDecBlocks P.decB iv (toBlocks (buf.length / 16) buf)).flatten,
      (pkcs7unpad (cbcDecBlocks P.decB iv (toBlocks (buf.length / 16) buf)).flatten).toOption)
  else
    .error ()

/-- The counter-increment step of `Handler::encrypt` (crypto.rs lines
314-333).  Note that the source reads the previous value at `msg.src_id`
in both arms but stores the incremented value at `msg.tgt_id` in the
`Other` arm (`id @ Id::Other(_)` binds the target).  `u64` increment wraps
in release mode. -/
def encCtrStep (st : CryptoState) (msg : Message) : Except Unit (Nat × CryptoState) :=
  match msg.tgt_id with
  | .Broadcast =>
    let c := ((st.brdcst_ctr.get msg.src_id).getD 0 + 1) % U64
    (st.brdcst_ctr.insertE msg.src_id c).map (fun m => (c, {st with brdcst_ctr := m}))
  | .Other _ =>
    let c := ((st.send_dm_ctr.get msg.src_id).getD 0 + 1) % U64
    (st.send_dm_ctr.insertE msg.tgt_id c).map (fun m => (c, {st with send_dm_ctr := m}))
  | _ => .error ()

/-- The counter-commit step of `Handler::decrypt` (crypto.rs lines 392-404):
stores the received counter unconditionally before any integrity check. -/
def decCtrStep (st : CryptoState) (msg : Message) (ctr : Nat) : Except Unit CryptoState :=
  match msg.tgt_id with
  | .Broadcast =>
    (st.brdcst_ctr.insertE msg.src_id ctr).map (fun m => {st with brdcst_ctr := m})
  | .Other _ =>
    (st.recv_dm_ctr.insertE msg.src_id ctr).map (fun m => {st with recv_dm_ctr := m})
  | _ => .error ()

/-- `Handler::verify` (secure/crypto.rs).  The method takes `&mut self`; the
returned state mirrors that reference at each return site (the body performs
no state writes).  The `msg.len - size` of the source is `usize`
subtraction, which wraps in release mode.  The `unreachable!` arms for
SSS/FAA targets are the error case. -/
def Handler.verify (P : Prims) (st : CryptoState) (data : List Nat) (msg : Message) :
    Except Unit (Bool × CryptoState) := do
  if (msg.len + (U64 - VerificationSegment.size)) % U64 % 16 ≠ 0 then
    return (false, st)
  let ct_hdr := VerificationSegment.fromBytes data
  let prev_ctr ← (match msg.tgt_id with
    | .Broadcast => .ok ((st.brdcst_ctr.get msg.src_id).getD 0)
    | .Other _ => .ok ((st.recv_dm_ctr.get msg.src_id).getD 0)
    | _ => .error ())
  if ct_hdr.ctr < prev_ctr then
    return (false, st)
  else
    let h := P.hmac st.hmac_key (headerBytes msg ++ ct_hdr.iv ++ natToLE 8 ct_hdr.ctr)
    return (h == ct_hdr.hmac, st)

/-- `Handler::encrypt` (secure/crypto.rs).  Returns the new message length,
the new handler state and the new buffer; `.error` is a panic
(`copy_within` out of range, counter-map capacity, or the `expect` around
`aes.encrypt`). -/
def Handler.encrypt (P : Prims) (st : CryptoState) (data : List Nat) (msg : Message) :
    Except Unit (Nat × CryptoState × List Nat) := do
  let sha0 := P.sha (data.take msg.len)
  let enc_hdr : ContentHeader := ⟨sha0, msg.len⟩
  if VerificationSegment.size + ContentHeader.size + msg.len ≤ data.length then
    let data := writeAt (VerificationSegment.size + ContentHeader.size) (data.take msg.len) data
    let cs ← encCtrStep st msg
    let ctr := cs.1
    let st := cs.2
    let (iv, rng) := st.rng.fill 16
    let st := {st with rng := rng}
    let data := writeAt VerificationSegment.size enc_hdr.toBytes data
    let er ← cbcEncrypt P iv (data.drop VerificationSegment.size) (ContentHeader.size + msg.len)
    let data := data.take VerificationSegment.size ++ er.1
    let newlen := VerificationSegment.size + er.2
    let h := P.hmac st.hmac_key (headerBytes {msg with len := newlen} ++ iv ++ natToLE 8 ctr)
    let ct_hdr : VerificationSegment := ⟨iv, ctr, h⟩
    let data := writeAt 0 ct_hdr.toBytes data
    return (newlen, st, data)
  else
    .error ()

/-- `Handler::decrypt` (secure/crypto.rs).  Returns (`Option` cleartext
length, new state, new buffer); `.error` is a panic (counter-map capacity,
the `data[56..msg.len]` slice, the SHA input slice, or the SSS/FAA
`unreachable!`).  Note that the counter is committed before any integrity
check. -/
def Handler.decrypt (P : Prims) (st : CryptoState) (data : List Nat) (msg : Message) :
    Except Unit (Option Nat × CryptoState × List Nat) := do
  let ct_hdr := VerificationSegment.fromBytes data
  let st ← decCtrStep st msg ct_hdr.ctr
  if VerificationSegment.size ≤ msg.len ∧ msg.len ≤ data.length then
    match cbcDecrypt P ct_hdr.iv
        ((data.drop VerificationSegment.size).take (msg.len - VerificationSegment.size)) with
    | .error _ => return (none, st, data)
    | .ok ptm =>
      let data := writeAt VerificationSegment.size ptm.1 data
      match ptm.2 with
      | none => return (none, st, data)
      | some _ =>
        let enc_hdr := ContentHeader.fromBytes (data.drop VerificationSegment.size)
        if enc_hdr.len > msg.len - (VerificationSegment.size - ContentHeader.size) then
          return (none, st, data)
        else
          if VerificationSegment.size + ContentHeader.size + enc_hdr.len ≤ data.length then
            let m := (data.drop (VerificationSegment.size + ContentHeader.size)).take enc_hdr.len
            if P.sha m == enc_hdr.sha then
              let data := writeAt 0 m data
              return (some enc_hdr.len, st, data)
            else
              return (none, st, data)
          else
            .error ()
  else
    .error ()

/-! ## Basic lemmas about the byte-level helpers -/

theorem natToLE_length (k n : Nat) : (natToLE k n).length = k := by
  induction k generalizing n with
  | zero => rfl
  | succ k ih => simp [natToLE, ih]

theorem leToNat_natToLE (k n : Nat) : leToNat (natToLE k n) = n % 256 ^ k := by
  induction k generalizing n with
  | zero => simp [natToLE, leToNat, Nat.mod_one]
  | succ k ih =>
    rw [natToLE, leToNat, ih, pow_succ, mul_comm (256 ^ k) 256, Nat.mod_mul]

theorem xorBytes_length (a b : List Nat) : (xorBytes a b).length = min a.length b.length := by
  simp [xorBytes]

theorem xorBytes_cancel (a b : List Nat) (h : a.length ≤ b.length) :
    xorBytes (xorBytes a b) b = a := by
  induction a generalizing b with
  | nil => simp [xorBytes]
  | cons x xs ih =>
    cases b with
    | nil => simp at h
    | cons y ys =>
      simp only [xorBytes, List.zipWith_cons_cons] at *
      refine congrArg₂ _ (Nat.xor_cancel_right y x) (ih ys (by simpa using h))

theorem writeAt_length (off : Nat) (src buf : List Nat) (h : off + src.length ≤ buf.length) :
    (writeAt off src buf).length = buf.length := by
  simp only [writeAt, List.length_append, List.length_take, List.length_drop]
  omega

theorem toBlocks_flatten (k : Nat) (l : List Nat) (h : l.length = 16 * k) :
    (toBlocks k l).flatten = l := by
  induction k generalizing l with
  | zero =>
    have hnil : l = [] := List.length_eq_zero.mp (by omega)
    simp [toBlocks, hnil]
  | succ k ih =>
    have h16 : 16 ≤ l.length := by omega
    rw [toBlocks, List.flatten_cons, ih (l.drop 16) (by simp [List.length_drop]; omega),
      List.take_append_drop]

theorem toBlocks_mem_length (k : Nat) (l : List Nat) (h : 16 * k ≤ l.length) :
    ∀ b ∈ toBlocks k l, b.length = 16 := by
  induction k generalizing l with
  | zero => simp [toBlocks]
  | succ k ih =>
    intro b hb
    rw [toBlocks] at hb
    rcases List.mem_cons.mp hb with rfl | hb
    · simp [List.length_take]; omega
    · exact ih (l.drop 16) (by simp [List.length_drop]; omega) b hb

theorem toBlocks_of_flatten (bs : List (List Nat)) (hbs : ∀ b ∈ bs, b.length = 16) :
    toBlocks bs.length bs.flatten = bs := by
  induction bs with
  | nil => simp [toBlocks]
  | cons b rest ih =>
    have hb : b.length = 16 := hbs b (List.mem_cons_self b rest)
    rw [List.length_cons, List.flatten_cons, toBlocks,
      List.take_left' hb, List.drop_left' hb,
      ih (fun x hx => hbs x (List.mem_cons_of_mem b hx))]

theorem cbcEncBlocks_length (encB : List Nat → List Nat) (prev : List Nat)
    (bs : List (List Nat)) : (cbcEncBlocks encB prev bs).length = bs.length := by
  induction bs generalizing prev with
  | nil => rfl
  | cons b rest ih => simp [cbcEncBlocks, ih]

theorem cbcEncBlocks_mem_length (P : Prims) (hP : PrimsOk P) (prev : List Nat)
    (hprev : prev.length = 16) (bs : List (List Nat)) (hbs : ∀ b ∈ bs, b.length = 16) :
    ∀ c ∈ cbcEncBlocks P.encB prev bs, c.length = 16 := by
  induction bs generalizing prev with
  | nil => simp [cbcEncBlocks]
  | cons b rest ih =>
    intro c hc
    have hb : b.length = 16 := hbs b (List.mem_cons_self b rest)
    have hx : (xorBytes b prev).length = 16 := by
      rw [xorBytes_length, hb, hprev]; rfl
    rw [cbcEncBlocks] at hc
    rcases List.mem_cons.mp hc with rfl | hc
    · exact hP.encB_len _ hx
    · exact ih _ (hP.encB_len _ hx) (fun x hx2 => hbs x (List.mem_cons_of_mem b hx2)) c hc

theorem cbcDecBlocks_cbcEncBlocks (P : Prims) (hP : PrimsOk P) (prev : List Nat)
    (hprev : prev.length = 16) (bs : List (List Nat)) (hbs : ∀ b ∈ bs, b.length = 16) :
    cbcDecBlocks P.decB prev (cbcEncBlocks P.encB prev bs) = bs := by
  induction bs generalizing prev with
  | nil => rfl
  | cons b rest ih =>
    have hb : b.length = 16 := hbs b (List.mem_cons_self b rest)
    have hx : (xorBytes b prev).length = 16 := by
      rw [xorBytes_length, hb, hprev]; rfl
    rw [cbcEncBlocks, cbcDecBlocks, hP.decB_encB _ hx,
      xorBytes_cancel b prev (by omega),
      ih _ (hP.encB_len _ hx) (fun x hx2 => hbs x (List.mem_cons_of_mem b hx2))]

theorem flatten_length_of_blocks (bs : List (List Nat)) (hbs : ∀ b ∈ bs, b.length = 16) :
    bs.flatten.length = 16 * bs.length := by
  induction bs with
  | nil => simp
  | cons b rest ih =>
    have hb : b.length = 16 := hbs b (List.mem_cons_self b rest)
    simp only [List.flatten_cons, List.length_append, List.length_cons, hb,
      ih (fun x hx => hbs x (List.mem_cons_of_mem b hx))]
    ring

theorem pkcs7unpad_append_pad (x : List Nat) (p : Nat) (hp : 1 ≤ p) :
    pkcs7unpad (x ++ List.replicate p p) = .ok x := by
  have hne : List.replicate p p ≠ [] := by
    simp [List.replicate_eq_nil_iff]; omega
  have hlast : (x ++ List.replicate p p).getLast? = some p := by
    rw [List.getLast?_append_of_ne_nil x hne]
    rcases Nat.exists_eq_succ_of_ne_zero (show p ≠ 0 by omega) with ⟨q, hq⟩
    rw [hq, List.replicate_succ', List.getLast?_concat]
  have hlen : (x ++ List.replicate p p).length = x.length + p := by simp
  rw [pkcs7unpad, hlast]
  have hnlt : ¬(p = 0 ∨ (x ++ List.replicate p p).length < p) := by
    rw [hlen]; omega
  simp only
  rw [if_neg hnlt]
  have hdrop : (x ++ List.replicate p p).drop ((x ++ List.replicate p p).length - p)
      = List.replicate p p := by
    rw [hlen, Nat.add_sub_cancel, List.drop_left]
  have hall : ((List.replicate p p).take (p - 1)).all (fun v => v == p) = true := by
    rw [List.take_replicate]
    simp [List.all_eq_true, List.mem_replicate]
  rw [hdrop, hall, if_pos rfl, hlen, Nat.add_sub_cancel, List.take_left]

/-! ## Normal forms for the secure envelope -/

/-- End of the PKCS#7-padded block for a cleartext region of `pos` bytes:
the next strict multiple of 16. -/
def blockEnd (pos : Nat) : Nat := pos / 16 * 16 + 16

/-- The PKCS#7 pad width for a region of `pos` bytes. -/
def padWidth (pos : Nat) : Nat := 16 - pos % 16

/-- The padded content segment produced by `Handler::encrypt` for cleartext
`m`: content header, message, PKCS#7 padding. -/
def encPlain (P : Prims) (m : List Nat) : List Nat :=
  P.sha m ++ natToLE 8 m.length ++ m ++
    List.replicate (padWidth (ContentHeader.size + m.length)) (padWidth (ContentHeader.size + m.length))

/-- The ciphertext segment produced by `Handler::encrypt` for cleartext `m`
under IV `iv`. -/
def encCipher (P : Prims) (iv m : List Nat) : List Nat :=
  (cbcEncBlocks P.encB iv
    (toBlocks (blockEnd (ContentHeader.size + m.length) / 16) (encPlain P m))).flatten

theorem blockEnd_lt (pos : Nat) : pos < blockEnd pos := by
  unfold blockEnd
  omega

theorem blockEnd_pad (pos : Nat) : blockEnd pos = pos + padWidth pos := by
  unfold blockEnd padWidth
  omega

theorem blockEnd_mod (pos : Nat) : blockEnd pos % 16 = 0 := by
  unfold blockEnd
  omega

theorem encPlain_length (P : Prims) (hP : PrimsOk P) (m : List Nat) :
    (encPlain P m).length = blockEnd (ContentHeader.size + m.length) := by
  have h := blockEnd_pad (ContentHeader.size + m.length)
  simp [encPlain, hP.sha_len, natToLE_length, ContentHeader.size] at *
  omega

theorem encCipher_length (P : Prims) (hP : PrimsOk P) (iv m : List Nat)
    (hiv : iv.length = 16) :
    (encCipher P iv m).length = blockEnd (ContentHeader.size + m.length) := by
  have hpl := encPlain_length P hP m
  have hmem : ∀ b ∈ toBlocks (blockEnd (ContentHeader.size + m.length) / 16) (encPlain P m),
      b.length = 16 := by
    refine toBlocks_mem_length _ _ ?_
    rw [hpl]
    have := blockEnd_mod (ContentHeader.size + m.length)
    omega
  have hcb := cbcEncBlocks_mem_length P hP iv hiv _ hmem
  rw [encCipher, flatten_length_of_blocks _ hcb, cbcEncBlocks_length]
  have hkl : (toBlocks (blockEnd (ContentHeader.size + m.length) / 16) (encPlain P m)).length
      = blockEnd (ContentHeader.size + m.length) / 16 := by
    clear hpl hmem hcb
    generalize blockEnd (ContentHeader.size + m.length) / 16 = k
    generalize encPlain P m = l
    induction k generalizing l with
    | zero => rfl
    | succ k ih => simp [toBlocks, ih]
  rw [hkl]
  have := blockEnd_mod (ContentHeader.size + m.length)
  omega

theorem fill_fst_length (r : RngSt) (n : Nat) : ((r.fill n).1).length = n := by
  simp [RngSt.fill]

theorem verSize_eq : VerificationSegment.size = 56 := rfl

theorem chSize_eq : ContentHeader.size = 40 := rfl

theorem writeAt_zero (src buf : List Nat) : writeAt 0 src buf = src ++ buf.drop src.length := by
  simp [writeAt]

theorem writeAt_take_self (off : Nat) (src buf : List Nat) (hoff : off ≤ buf.length) :
    (writeAt off src buf).take off = buf.take off := by
  unfold writeAt
  rw [List.append_assoc, List.take_left' (List.length_take_of_le hoff)]

theorem writeAt_drop_self (off : Nat) (src buf : List Nat) (hoff : off ≤ buf.length) :
    (writeAt off src buf).drop off = src ++ buf.drop (off + src.length) := by
  unfold writeAt
  rw [List.append_assoc, List.drop_left' (List.length_take_of_le hoff)]

theorem writeAt_take_of_le (off : Nat) (src buf : List Nat) (k : Nat) (hk : k ≤ off)
    (hoff : off ≤ buf.length) :
    (writeAt off src buf).take k = buf.take k := by
  unfold writeAt
  rw [List.append_assoc,
    List.take_append_of_le_length (by rw [List.length_take_of_le hoff]; exact hk),
    List.take_take, min_eq_left hk]

/-- Symbolic evaluation of `Handler::encrypt` when the envelope fits in the
buffer: the result is the new length `56 + blockEnd (40 + len)`, the state
after the counter step with the RNG advanced, and the buffer
`verification segment ++ ciphertext ++ untouched tail`. -/
theorem encrypt_eq_ok (P : Prims) (hP : PrimsOk P) (st : CryptoState)
    (data : List Nat) (msg : Message) (cs : Nat × CryptoState)
    (hcs : encCtrStep st msg = .ok cs)
    (hbe : VerificationSegment.size + blockEnd (ContentHeader.size + msg.len) ≤ data.length) :
    Handler.encrypt P st data msg = .ok
      (VerificationSegment.size + blockEnd (ContentHeader.size + msg.len),
       {cs.2 with rng := (cs.2.rng.fill 16).2},
       VerificationSegment.toBytes
         ⟨(cs.2.rng.fill 16).1, cs.1,
          P.hmac cs.2.hmac_key
            (headerBytes {msg with
                len := VerificationSegment.size + blockEnd (ContentHeader.size + msg.len)} ++
              (cs.2.rng.fill 16).1 ++ natToLE 8 cs.1)⟩
         ++ encCipher P (cs.2.rng.fill 16).1 (data.take msg.len)
         ++ data.drop (VerificationSegment.size + blockEnd (ContentHeader.size + msg.len))) := by
  have hL : msg.len + 97 ≤ data.length := by
    have := blockEnd_lt (ContentHeader.size + msg.len)
    simp [VerificationSegment.size, ContentHeader.size] at *
    omega
  have hmlen : (data.take msg.len).length = msg.len :=
    List.length_take_of_le (by omega)
  rw [Handler.encrypt]
  rw [if_pos (show VerificationSegment.size + ContentHeader.size + msg.len ≤ data.length by
    simp [VerificationSegment.size, ContentHeader.size] at *; omega)]
  rw [hcs]
  simp only [bind, Except.bind]
  -- name the pieces
  set L := msg.len with hLdef
  set m := data.take L with hmdef
  set hdrB := (ContentHeader.toBytes ⟨P.sha m, L⟩ : List Nat) with hhdrB
  set iv := (cs.2.rng.fill 16).1 with hivdef
  have hivlen : iv.length = 16 := fill_fst_length _ _
  have hhdrBlen : hdrB.length = ContentHeader.size := by
    simp [hhdrB, ContentHeader.toBytes, ContentHeader.size, hP.sha_len, natToLE_length]
  have hbeL : ContentHeader.size + L < blockEnd (ContentHeader.size + L) :=
    blockEnd_lt _
  have hd1len : (writeAt (VerificationSegment.size + ContentHeader.size) m data).length
      = data.length := by
    refine writeAt_length _ _ _ ?_
    rw [hmlen, verSize_eq, chSize_eq]
    omega
  -- the region handed to AES, in normal form
  have hregion : (writeAt VerificationSegment.size hdrB
        (writeAt (VerificationSegment.size + ContentHeader.size) m data)).drop
        VerificationSegment.size
      = hdrB ++ (m ++ data.drop (96 + L)) := by
    rw [writeAt_drop_self _ _ _ (by rw [hd1len, verSize_eq]; omega), hhdrBlen]
    congr 1
    rw [writeAt_drop_self _ _ _ (by rw [verSize_eq, chSize_eq]; omega), hmlen]
    rw [verSize_eq, chSize_eq]
  have hrestlen : (data.drop (96 + L)).length = data.length - (96 + L) :=
    List.length_drop _ _
  -- the AES call, in normal form
  have hcbc : cbcEncrypt P iv (hdrB ++ (m ++ data.drop (96 + L))) (ContentHeader.size + L)
      = .ok (encCipher P iv m
          ++ data.drop (VerificationSegment.size + blockEnd (ContentHeader.size + L)),
        blockEnd (ContentHeader.size + L)) := by
    have hpartlen : (hdrB ++ m).length = ContentHeader.size + L := by
      rw [List.length_append, hhdrBlen, hmlen]
    have hguard : (ContentHeader.size + L) / 16 * 16 + 16
        ≤ (hdrB ++ (m ++ data.drop (96 + L))).length := by
      have hblk : blockEnd (ContentHeader.size + L) = (ContentHeader.size + L) / 16 * 16 + 16 := rfl
      simp only [List.length_append, hhdrBlen, hmlen, hrestlen]
      rw [verSize_eq] at hbe
      rw [chSize_eq] at *
      omega
    rw [cbcEncrypt, if_pos hguard]
    have htk : (hdrB ++ (m ++ data.drop (96 + L))).take (ContentHeader.size + L) = hdrB ++ m := by
      rw [← List.append_assoc, List.take_append_of_le_length (by rw [hpartlen]),
        List.take_of_length_le (by rw [hpartlen])]
    have hdp : (hdrB ++ (m ++ data.drop (96 + L))).drop ((ContentHeader.size + L) / 16 * 16 + 16)
        = data.drop (VerificationSegment.size + blockEnd (ContentHeader.size + L)) := by
      have hblk : (ContentHeader.size + L) / 16 * 16 + 16 = blockEnd (ContentHeader.size + L) := rfl
      rw [hblk, ← List.append_assoc, List.drop_append_eq_append_drop,
        List.drop_eq_nil_of_le (by rw [hpartlen]; omega), List.nil_append, List.drop_drop]
      congr 1
      rw [hpartlen, verSize_eq, chSize_eq] at *
      omega
    rw [htk, hdp]
    have hplain : hdrB ++ m ++ List.replicate (16 - (ContentHeader.size + L) % 16)
          (16 - (ContentHeader.size + L) % 16) = encPlain P m := by
      rw [encPlain, hhdrB, ContentHeader.toBytes, hmlen]
      rfl
    rw [hplain]
    rw [show (ContentHeader.size + L) / 16 * 16 + 16 = blockEnd (ContentHeader.size + L) from rfl]
    rw [encCipher, hmlen]
  rw [hregion, hcbc]
  simp only [pure, Except.pure]
  -- the final buffer
  have htk56 : (writeAt VerificationSegment.size hdrB
        (writeAt (VerificationSegment.size + ContentHeader.size) m data)).take
        VerificationSegment.size
      = data.take VerificationSegment.size := by
    rw [writeAt_take_self _ _ _ (by rw [hd1len, verSize_eq]; omega),
      writeAt_take_of_le _ _ _ _ (by rw [verSize_eq, chSize_eq]; omega)
        (by rw [verSize_eq, chSize_eq]; omega)]
  rw [htk56]
  have hverlen : (VerificationSegment.toBytes
      ⟨iv, cs.1, P.hmac cs.2.hmac_key
        (headerBytes {msg with
            len := VerificationSegment.size + blockEnd (ContentHeader.size + L)} ++
          iv ++ natToLE 8 cs.1)⟩).length = VerificationSegment.size := by
    simp [VerificationSegment.toBytes, natToLE_length, hivlen, hP.hmac_len, verSize_eq]
  rw [writeAt_zero, hverlen,
    List.drop_left' (List.length_take_of_le (by omega))]
  simp [List.append_assoc]

theorem pow256_8 : (256 : Nat) ^ 8 = U64 := by
  unfold U64
  norm_num

/-- Parsing a serialised verification segment (with anything appended) gives
the segment back. -/
theorem verSeg_fromBytes_append (iv : List Nat) (c : Nat) (hm rest : List Nat)
    (hiv : iv.length = 16) (hhm : hm.length = 32) (hc : c < U64) :
    VerificationSegment.fromBytes (VerificationSegment.toBytes ⟨iv, c, hm⟩ ++ rest)
    = ⟨iv, c, hm⟩ := by
  unfold VerificationSegment.toBytes VerificationSegment.fromBytes
  simp only [List.append_assoc]
  have h2 : (iv ++ (natToLE 8 c ++ (hm ++ rest))).drop 16 = natToLE 8 c ++ (hm ++ rest) :=
    List.drop_left' hiv
  have h3 : (iv ++ (natToLE 8 c ++ (hm ++ rest))).drop 24 = hm ++ rest := by
    rw [show (24 : Nat) = 16 + 8 by rfl, ← List.drop_drop, h2,
      List.drop_left' (natToLE_length 8 c)]
  simp only [VerificationSegment.mk.injEq]
  refine ⟨List.take_left' hiv, ?_, ?_⟩
  · rw [h2, List.take_left' (natToLE_length 8 c), leToNat_natToLE, pow256_8,
      Nat.mod_eq_of_lt hc]
  · rw [h3, List.take_left' hhm]

/-- Symbolic evaluation of `Handler::decrypt` on a well-formed envelope
`verification segment ++ encrypted content segment ++ anything`: the
cleartext length is returned and the cleartext lands at offset 0. -/
theorem decrypt_wellformed (P : Prims) (hP : PrimsOk P) (st st1 : CryptoState)
    (c : Nat) (hc : c < U64) (iv hm m tail : List Nat)
    (hiv : iv.length = 16) (hhm : hm.length = 32) (hmU : m.length < U64)
    (msg : Message)
    (hmsg : msg.len = VerificationSegment.size + blockEnd (ContentHeader.size + m.length))
    (hctr : decCtrStep st msg c = .ok st1) :
    Handler.decrypt P st
      (VerificationSegment.toBytes ⟨iv, c, hm⟩ ++ encCipher P iv m ++ tail) msg
    = .ok (some m.length, st1,
        m ++ (VerificationSegment.toBytes ⟨iv, c, hm⟩ ++ encPlain P m ++ tail).drop m.length) := by
  have hverlen : (VerificationSegment.toBytes ⟨iv, c, hm⟩).length = VerificationSegment.size := by
    simp [VerificationSegment.toBytes, natToLE_length, hiv, hhm, verSize_eq]
  have hctlen : (encCipher P iv m).length = blockEnd (ContentHeader.size + m.length) :=
    encCipher_length P hP iv m hiv
  have hptlen : (encPlain P m).length = blockEnd (ContentHeader.size + m.length) :=
    encPlain_length P hP m
  have hbemod : blockEnd (ContentHeader.size + m.length) % 16 = 0 := blockEnd_mod _
  have hbelt : ContentHeader.size + m.length < blockEnd (ContentHeader.size + m.length) :=
    blockEnd_lt _
  rw [Handler.decrypt, List.append_assoc,
    verSeg_fromBytes_append iv c hm _ hiv hhm hc]
  rw [hctr]
  simp only [bind, Except.bind]
  have hbuflen : (VerificationSegment.toBytes ⟨iv, c, hm⟩ ++ (encCipher P iv m ++ tail)).length
      = VerificationSegment.size + (blockEnd (ContentHeader.size + m.length) + tail.length) := by
    simp [hverlen, hctlen]
  rw [if_pos (show VerificationSegment.size ≤ msg.len ∧ msg.len ≤ _ by
    constructor
    · rw [hmsg]; omega
    · rw [hbuflen, hmsg]; omega)]
  -- the ciphertext region
  have hreg : ((VerificationSegment.toBytes ⟨iv, c, hm⟩ ++ (encCipher P iv m ++ tail)).drop
        VerificationSegment.size).take (msg.len - VerificationSegment.size)
      = encCipher P iv m := by
    rw [List.drop_left' hverlen, hmsg, Nat.add_sub_cancel_left,
      List.take_append_of_le_length (by rw [hctlen]), List.take_of_length_le (by rw [hctlen])]
  rw [hreg]
  -- CBC decryption inverts CBC encryption
  have hblocks : ∀ b ∈ toBlocks (blockEnd (ContentHeader.size + m.length) / 16) (encPlain P m),
      b.length = 16 :=
    toBlocks_mem_length _ _ (by rw [hptlen]; omega)
  have hnb : (toBlocks (blockEnd (ContentHeader.size + m.length) / 16) (encPlain P m)).length
      = blockEnd (ContentHeader.size + m.length) / 16 := by
    generalize encPlain P m = l
    generalize blockEnd (ContentHeader.size + m.length) / 16 = k
    induction k generalizing l with
    | zero => rfl
    | succ k ih => simp [toBlocks, ih]
  have hencmem := cbcEncBlocks_mem_length P hP iv hiv _ hblocks
  have hdec : cbcDecrypt P iv (encCipher P iv m) = .ok (encPlain P m, some
      (P.sha m ++ natToLE 8 m.length ++ m)) := by
    rw [cbcDecrypt, if_pos (by rw [hctlen]; exact hbemod)]
    rw [hctlen, encCipher]
    set bs := toBlocks (blockEnd (ContentHeader.size + m.length) / 16) (encPlain P m)
      with hbsdef
    have hlen : blockEnd (ContentHeader.size + m.length) / 16
        = (cbcEncBlocks P.encB iv bs).length := by
      rw [cbcEncBlocks_length, hnb]
    rw [hlen, toBlocks_of_flatten _ hencmem,
      cbcDecBlocks_cbcEncBlocks P hP iv hiv _ hblocks, hbsdef,
      toBlocks_flatten _ _ (by rw [hptlen]; omega)]
    have hunpad : pkcs7unpad (encPlain P m) = .ok (P.sha m ++ natToLE 8 m.length ++ m) := by
      have h := pkcs7unpad_append_pad (P.sha m ++ natToLE 8 m.length ++ m)
        (padWidth (ContentHeader.size + m.length)) (by unfold padWidth; omega)
      rw [encPlain]
      simpa [List.append_assoc] using h
    rw [hunpad]
    rfl
  rw [hdec]
  simp only
  -- the buffer after in-place decryption
  have hdropend : (VerificationSegment.toBytes ⟨iv, c, hm⟩ ++ (encCipher P iv m ++ tail)).drop
      (VerificationSegment.size + (encPlain P m).length) = tail := by
    rw [hptlen, ← List.append_assoc,
      List.drop_left' (by rw [List.length_append, hverlen, hctlen])]
  have hdata2 : writeAt VerificationSegment.size (encPlain P m)
        (VerificationSegment.toBytes ⟨iv, c, hm⟩ ++ (encCipher P iv m ++ tail))
      = VerificationSegment.toBytes ⟨iv, c, hm⟩ ++ (encPlain P m ++ tail) := by
    rw [writeAt, List.take_left' hverlen, hdropend]
    simp [List.append_assoc]
  rw [hdata2]
  -- parse the content header
  have hdrop56 : (VerificationSegment.toBytes ⟨iv, c, hm⟩ ++ (encPlain P m ++ tail)).drop
      VerificationSegment.size = encPlain P m ++ tail := List.drop_left' hverlen
  have hch : ContentHeader.fromBytes (encPlain P m ++ tail) = ⟨P.sha m, m.length⟩ := by
    unfold ContentHeader.fromBytes encPlain
    simp only [List.append_assoc]
    have hd32 : ((P.sha m ++ (natToLE 8 m.length ++ (m ++ (List.replicate
        (padWidth (ContentHeader.size + m.length)) (padWidth (ContentHeader.size + m.length))
        ++ tail))))).drop 32 = natToLE 8 m.length ++ (m ++ (List.replicate
        (padWidth (ContentHeader.size + m.length)) (padWidth (ContentHeader.size + m.length))
        ++ tail)) := List.drop_left' (hP.sha_len m)
    simp only [ContentHeader.mk.injEq]
    constructor
    · exact List.take_left' (hP.sha_len m)
    · rw [hd32, List.take_left' (natToLE_length 8 m.length), leToNat_natToLE, pow256_8,
        Nat.mod_eq_of_lt hmU]
  rw [hdrop56, hch]
  simp only
  rw [if_neg (show ¬(m.length > msg.len - (VerificationSegment.size - ContentHeader.size)) by
    rw [hmsg, verSize_eq, chSize_eq] at *
    omega)]
  have hlen2 : (VerificationSegment.toBytes ⟨iv, c, hm⟩ ++ (encPlain P m ++ tail)).length
      = VerificationSegment.size + (blockEnd (ContentHeader.size + m.length) + tail.length) := by
    simp [hverlen, hptlen]
  rw [if_pos (show VerificationSegment.size + ContentHeader.size + m.length
      ≤ (VerificationSegment.toBytes ⟨iv, c, hm⟩ ++ (encPlain P m ++ tail)).length by
    rw [hlen2, verSize_eq, chSize_eq] at *
    omega)]
  -- the recovered message
  have hm96 : ((VerificationSegment.toBytes ⟨iv, c, hm⟩ ++ (encPlain P m ++ tail)).drop
        (VerificationSegment.size + ContentHeader.size)).take m.length = m := by
    rw [← List.drop_drop, hdrop56]
    unfold encPlain
    simp only [List.append_assoc]
    rw [show ContentHeader.size = 32 + 8 from rfl, ← List.drop_drop,
      List.drop_left' (hP.sha_len m), List.drop_left' (natToLE_length 8 m.length),
      List.take_append_of_le_length le_rfl, List.take_of_length_le le_rfl]
  rw [hm96]
  rw [if_pos (show (P.sha m == P.sha m) = true from beq_self_eq_true _)]
  simp only [pure, Except.pure]
  rw [writeAt_zero]
  simp [List.append_assoc]

/-! ## Facts used to instantiate the abstract primitives -/

theorem idPrims_ok : PrimsOk idPrims := by
  constructor <;> intro x <;> simp [idPrims]

theorem insertE_ok_of_lt (m : LMap) (k : Id) (v : Nat) (h : m.entries.length < lmCap) :
    ∃ m2, m.insertE k v = .ok m2 := by
  unfold LMap.insertE
  by_cases hf : (m.entries.find? (fun e => e.1 == k)).isSome
  · rw [if_pos hf]; exact ⟨_, rfl⟩
  · rw [if_neg hf, if_pos h]; exact ⟨_, rfl⟩

/-- `Handler::encrypt` panics (models as `.error`) exactly when the padded
content segment does not fit the buffer behind the verification segment. -/
theorem encrypt_err_of_overflow (P : Prims) (hP : PrimsOk P) (st : CryptoState)
    (data : List Nat)
    (msg : Message) (cs : Nat × CryptoState) (hcs : encCtrStep st msg = .ok cs)
    (h96 : VerificationSegment.size + ContentHeader.size + msg.len ≤ data.length)
    (hbe : data.length < VerificationSegment.size + blockEnd (ContentHeader.size + msg.len)) :
    Handler.encrypt P st data msg = .error () := by
  rw [Handler.encrypt, if_pos h96, hcs]
  simp only [bind, Except.bind]
  have hd1len : (writeAt (VerificationSegment.size + ContentHeader.size) (data.take msg.len)
      data).length = data.length := by
    refine writeAt_length _ _ _ ?_
    rw [List.length_take_of_le (by rw [verSize_eq, chSize_eq] at h96; omega)]
    exact h96
  have hd2len : (writeAt VerificationSegment.size
        (ContentHeader.toBytes ⟨P.sha (data.take msg.len), msg.len⟩)
        (writeAt (VerificationSegment.size + ContentHeader.size) (data.take msg.len) data)).length
      = data.length := by
    have hhdrlen : (ContentHeader.toBytes ⟨P.sha (data.take msg.len), msg.len⟩).length = 40 := by
      simp [ContentHeader.toBytes, natToLE_length, hP.sha_len]
    rw [writeAt_length]
    · exact hd1len
    · rw [hd1len, hhdrlen, verSize_eq]
      rw [verSize_eq, chSize_eq] at h96
      omega
  have hregl : ((writeAt VerificationSegment.size
        (ContentHeader.toBytes ⟨P.sha (data.take msg.len), msg.len⟩)
        (writeAt (VerificationSegment.size + ContentHeader.size) (data.take msg.len)
          data)).drop VerificationSegment.size).length
      = data.length - VerificationSegment.size := by
    rw [List.length_drop, hd2len]
  have hcbcerr : cbcEncrypt P (cs.2.rng.fill 16).1
      ((writeAt VerificationSegment.size
        (ContentHeader.toBytes ⟨P.sha (data.take msg.len), msg.len⟩)
        (writeAt (VerificationSegment.size + ContentHeader.size) (data.take msg.len)
          data)).drop VerificationSegment.size) (ContentHeader.size + msg.len) = .error () := by
    rw [cbcEncrypt, if_neg]
    rw [hregl]
    have hbeq : (ContentHeader.size + msg.len) / 16 * 16 + 16
        = blockEnd (ContentHeader.size + msg.len) := rfl
    rw [hbeq, verSize_eq] at *
    omega
  rw [hcbcerr]

/-- The bound up to which `Handler::encrypt` succeeds on a full-size buffer:
`blockEnd (40 + L) ≤ 16584` iff `L ≤ 16535`. -/
theorem fits_iff (L : Nat) :
    VerificationSegment.size + blockEnd (ContentHeader.size + L) ≤ SCEWL_MAX_DATA_SZ ↔
      L ≤ 16535 := by
  rw [verSize_eq, chSize_eq]
  unfold blockEnd SCEWL_MAX_DATA_SZ
  omega

/-- Round-trip core: if the encrypt-side counter step succeeded with counter
value 1 and the resulting maps are not full, encrypt-then-decrypt restores
the cleartext. -/
theorem roundtrip_core (P : Prims) (hP : PrimsOk P) (rng : RngSt) (aes hmk : List Nat)
    (data : List Nat) (hdata : data.length = SCEWL_MAX_DATA_SZ) (L : Nat) (hL : L ≤ 16535)
    (src src2 tgt tgt2 : Id) (htgt2 : tgt2 = Id.Broadcast ∨ ∃ b, tgt2 = Id.Other b)
    (stA : CryptoState)
    (hcs : encCtrStep (CryptoState.new rng aes hmk) ⟨tgt, src, L⟩ = .ok (1, stA))
    (hbrd : stA.brdcst_ctr.entries.length < lmCap)
    (hrecv : stA.recv_dm_ctr.entries.length < lmCap) :
    ∃ elen st1 buf1 st2 buf2,
      Handler.encrypt P (CryptoState.new rng aes hmk) data ⟨tgt, src, L⟩
        = .ok (elen, st1, buf1) ∧
      Handler.decrypt P st1 buf1 ⟨tgt2, src2, elen⟩ = .ok (some L, st2, buf2) ∧
      buf2.take L = data.take L := by
  have hbe : VerificationSegment.size + blockEnd (ContentHeader.size + L) ≤ data.length := by
    rw [hdata]
    exact (fits_iff L).mpr hL
  have hLn : L ≤ data.length := by
    have := blockEnd_lt (ContentHeader.size + L)
    rw [verSize_eq, chSize_eq] at *
    omega
  have hmlen : (data.take L).length = L := List.length_take_of_le hLn
  have hU1 : (1 : Nat) < U64 := by unfold U64; omega
  have henc := encrypt_eq_ok P hP (CryptoState.new rng aes hmk) data ⟨tgt, src, L⟩
    (1, stA) hcs hbe
  -- names for the encrypt-side artefacts
  set iv := (stA.rng.fill 16).1 with hivdef
  have hiv : iv.length = 16 := fill_fst_length _ _
  set st1 := {stA with rng := (stA.rng.fill 16).2} with hst1def
  set hmv := P.hmac stA.hmac_key
    (headerBytes ⟨tgt, src, VerificationSegment.size + blockEnd (ContentHeader.size + L)⟩ ++
      iv ++ natToLE 8 1) with hhmvdef
  have hhmv : hmv.length = 32 := hP.hmac_len _ _
  -- the decrypt-side counter commit succeeds
  have hdc : ∃ st2, decCtrStep st1 ⟨tgt2, src2,
      VerificationSegment.size + blockEnd (ContentHeader.size + L)⟩ 1 = .ok st2 := by
    rcases htgt2 with rfl | ⟨b, rfl⟩
    · obtain ⟨m2, hm2⟩ := insertE_ok_of_lt st1.brdcst_ctr src2 1 hbrd
      exact ⟨_, by simp only [decCtrStep]; rw [hm2]; rfl⟩
    · obtain ⟨m2, hm2⟩ := insertE_ok_of_lt st1.recv_dm_ctr src2 1 hrecv
      exact ⟨_, by simp only [decCtrStep]; rw [hm2]; rfl⟩
  obtain ⟨st2, hdc⟩ := hdc
  have hdec := decrypt_wellformed P hP st1 st2 1 hU1 iv hmv (data.take L)
    (data.drop (VerificationSegment.size + blockEnd (ContentHeader.size + L)))
    hiv hhmv (by rw [hmlen]; unfold U64; omega)
    ⟨tgt2, src2, VerificationSegment.size + blockEnd (ContentHeader.size + L)⟩
    (by simp [hmlen]) hdc
  rw [hmlen] at hdec
  refine ⟨VerificationSegment.size + blockEnd (ContentHeader.size + L), st1, _, st2, _,
    henc, hdec, ?_⟩
  rw [List.take_left' hmlen]

/-- **C1 (amended)**: for the secure crypto handler freshly provisioned with
any AES key, HMAC key and RNG state, and any cleartext `m` of length
`L ≤ 16535` at offset 0 of the full-size shared buffer, encrypting to a
`Broadcast` or `Other` target and then decrypting the resulting buffer with
a descriptor of the same target class and the returned envelope length
yields `some L` and leaves `m` bit-for-bit at offset 0.  (The bound in the
claim, `SCEWL_MAX_DATA_SZ - 96 = 16544`, is too generous: lengths
16536..16544 make `aes.encrypt` overrun the buffer and panic, see the
counterexample.) -/
theorem c1_secure_envelope_roundtrip (P : Prims) (hP : PrimsOk P)
    (rng : RngSt) (aes hmk : List Nat) (data : List Nat)
    (hdata : data.length = SCEWL_MAX_DATA_SZ) (L : Nat) (hL : L ≤ 16535)
    (src src2 tgt tgt2 : Id)
    (htgt : (tgt = Id.Broadcast ∧ tgt2 = Id.Broadcast) ∨
      (∃ a b, tgt = Id.Other a ∧ tgt2 = Id.Other b)) :
    ∃ elen st1 buf1 st2 buf2,
      Handler.encrypt P (CryptoState.new rng aes hmk) data ⟨tgt, src, L⟩
        = .ok (elen, st1, buf1) ∧
      Handler.decrypt P st1 buf1 ⟨tgt2, src2, elen⟩ = .ok (some L, st2, buf2) ∧
      buf2.take L = data.take L := by
  have hU1 : (1 : Nat) < U64 := by unfold U64; omega
  rcases htgt with ⟨rfl, rfl⟩ | ⟨a, b, rfl, rfl⟩
  · refine roundtrip_core P hP rng aes hmk data hdata L hL src src2 _ _ (Or.inl rfl)
      ⟨rng, aes, hmk, ⟨[]⟩, ⟨[]⟩, ⟨[(src, 1)]⟩⟩ ?_ ?_ ?_
    · simp [encCtrStep, CryptoState.new, LMap.get, LMap.insertE, lmCap,
        Nat.mod_eq_of_lt hU1, Except.map]
    · simp [lmCap]
    · simp [lmCap]
  · refine roundtrip_core P hP rng aes hmk data hdata L hL src src2 _ _ (Or.inr ⟨b, rfl⟩)
      ⟨rng, aes, hmk, ⟨[(Id.Other a, 1)]⟩, ⟨[]⟩, ⟨[]⟩⟩ ?_ ?_ ?_
    · simp [encCtrStep, CryptoState.new, LMap.get, LMap.insertE, lmCap,
        Nat.mod_eq_of_lt hU1, Except.map]
    · simp [lmCap]
    · simp [lmCap]

/-- The fresh handler state used for concrete evaluations. -/
def st0 : CryptoState :=
  CryptoState.new zeroRng (List.replicate 16 0) (List.replicate 64 0)

theorem encCtrStep_st0_brdcst (src : Id) (L : Nat) :
    encCtrStep st0 ⟨Id.Broadcast, src, L⟩
      = .ok (1, ⟨zeroRng, List.replicate 16 0, List.replicate 64 0, ⟨[]⟩, ⟨[]⟩, ⟨[(src, 1)]⟩⟩) := by
  simp [encCtrStep, st0, CryptoState.new, LMap.get, LMap.insertE, lmCap, Except.map,
    Nat.mod_eq_of_lt (show 1 < U64 by unfold U64; omega)]

/-- Witness for the amended C1 round-trip at a concrete input. -/
theorem c1_secure_envelope_roundtrip_witness :
    ∃ elen st1 buf1 st2 buf2,
      Handler.encrypt idPrims (CryptoState.new zeroRng (List.replicate 16 0)
          (List.replicate 64 0)) (List.replicate SCEWL_MAX_DATA_SZ 7) ⟨Id.Broadcast, Id.Other 5, 3⟩
        = .ok (elen, st1, buf1) ∧
      Handler.decrypt idPrims st1 buf1 ⟨Id.Broadcast, Id.Other 6, elen⟩
        = .ok (some 3, st2, buf2) ∧
      buf2.take 3 = (List.replicate SCEWL_MAX_DATA_SZ 7).take 3 :=
  c1_secure_envelope_roundtrip idPrims idPrims_ok zeroRng (List.replicate 16 0)
    (List.replicate 64 0) (List.replicate SCEWL_MAX_DATA_SZ 7) (by simp) 3 (by norm_num)
    (Id.Other 5) (Id.Other 6) Id.Broadcast Id.Broadcast (Or.inl ⟨rfl, rfl⟩)

/-- **C1 counterexample**: at the bound stated by the claim,
`L = SCEWL_MAX_DATA_SZ − 96 = 16544`, `Handler::encrypt` does not produce an
envelope at all — `aes.encrypt` cannot fit the padded content in the buffer
and the surrounding `expect` panics (modelled as `.error`), so no decrypt of
"the resulting buffer" can return the cleartext. -/
theorem c1_counterexample :
    SCEWL_MAX_DATA_SZ - 96 = 16544 ∧
    Handler.encrypt idPrims st0 (List.replicate SCEWL_MAX_DATA_SZ 0)
      ⟨Id.Broadcast, Id.Other 5, 16544⟩ = .error () := by
  constructor
  · decide
  · refine encrypt_err_of_overflow idPrims idPrims_ok st0 _ _ _
      (encCtrStep_st0_brdcst (Id.Other 5) 16544) ?_ ?_
    · rw [List.length_replicate]
      decide
    · rw [List.length_replicate]
      decide

/-- **C2 (amended)**: whenever the counter step succeeds and
`L = msg.len ≤ 16535`, the length returned by the secure handler's encrypt
on the full-size buffer equals `56` plus the smallest multiple of 16 that is
*strictly greater* than `40 + L` (PKCS#7 always adds at least one padding
byte); in particular it is `104` for `L = 0`.  The claim's formula
`56 + ceil((40+L)/16)*16` differs whenever `40 + L` is itself a multiple
of 16, see the counterexample at `L = 8`. -/
theorem c2_encrypt_length (P : Prims) (hP : PrimsOk P) (st : CryptoState)
    (data : List Nat) (msg : Message) (cs : Nat × CryptoState)
    (hcs : encCtrStep st msg = .ok cs) (hdata : data.length = SCEWL_MAX_DATA_SZ)
    (hL : msg.len ≤ 16535) :
    (∃ st1 buf1, Handler.encrypt P st data msg
      = .ok (56 + ((40 + msg.len) / 16 * 16 + 16), st1, buf1)) ∧
    56 + ((40 + 0) / 16 * 16 + 16) = 104 := by
  constructor
  · have henc := encrypt_eq_ok P hP st data msg cs hcs
      (by rw [hdata]; exact (fits_iff msg.len).mpr hL)
    have hnum : VerificationSegment.size + blockEnd (ContentHeader.size + msg.len)
        = 56 + ((40 + msg.len) / 16 * 16 + 16) := by
      rw [verSize_eq, chSize_eq]; rfl
    rw [hnum] at henc
    exact ⟨_, _, henc⟩
  · decide

/-- Witness for the amended C2 length formula at a concrete input. -/
theorem c2_encrypt_length_witness :
    (∃ st1 buf1, Handler.encrypt idPrims st0 (List.replicate SCEWL_MAX_DATA_SZ 0)
      ⟨Id.Broadcast, Id.Other 5, 0⟩ = .ok (56 + ((40 + 0) / 16 * 16 + 16), st1, buf1)) ∧
    56 + ((40 + 0) / 16 * 16 + 16) = 104 :=
  c2_encrypt_length idPrims idPrims_ok st0 (List.replicate SCEWL_MAX_DATA_SZ 0)
    ⟨Id.Broadcast, Id.Other 5, 0⟩ _ (encCtrStep_st0_brdcst (Id.Other 5) 0)
    (by simp) (by norm_num)

/-- **C2 counterexample**: for `L = 8` (so `40 + L = 48` is already a
multiple of 16) the code returns `120 = 56 + 64`, not the claimed
`56 + ceil(48/16)*16 = 104`; PKCS#7 adds a full extra block. -/
theorem c2_counterexample :
    (∃ st1 buf1, Handler.encrypt idPrims st0 (List.replicate SCEWL_MAX_DATA_SZ 0)
      ⟨Id.Broadcast, Id.Other 5, 8⟩ = .ok (120, st1, buf1)) ∧
    56 + (40 + 8 + 15) / 16 * 16 = 104 ∧ (120 : Nat) ≠ 104 := by
  refine ⟨?_, by norm_num, by norm_num⟩
  have henc := encrypt_eq_ok idPrims idPrims_ok st0 (List.replicate SCEWL_MAX_DATA_SZ 0)
    ⟨Id.Broadcast, Id.Other 5, 8⟩ _ (encCtrStep_st0_brdcst (Id.Other 5) 8)
    (by rw [List.length_replicate]; decide)
  have hnum : VerificationSegment.size + blockEnd (ContentHeader.size
      + (⟨Id.Broadcast, Id.Other 5, 8⟩ : Message).len) = 120 := by decide
  rw [hnum] at henc
  exact ⟨_, _, henc⟩

/-! ## C3-C6: counter semantics, state effects, and the length check -/

theorem find?_replace_get (l : List (Id × Nat)) (k : Id) (v : Nat)
    (hf : (l.find? (fun e => e.1 == k)).isSome) :
    ((l.map (fun e => if e.1 == k then (e.1, v) else e)).find?
      (fun e => e.1 == k)).map (fun e => e.2) = some v := by
  induction l with
  | nil => simp at hf
  | cons a l ih =>
    by_cases hk : a.1 = k
    · simp [List.find?_cons, hk]
    · have hk2 : (a.1 == k) = false := beq_eq_false_iff_ne.mpr hk
      rw [List.map_cons, if_neg (by simp [hk2]),
        List.find?_cons_of_neg _ (by simp [hk2])]
      rw [List.find?_cons_of_neg _ (by simp [hk2])] at hf
      exact ih hf

theorem LMap.get_insertE (m : LMap) (k : Id) (v : Nat) (m2 : LMap)
    (h : m.insertE k v = .ok m2) : m2.get k = some v := by
  unfold LMap.insertE at h
  split at h
  case isTrue hf =>
    injection h with h2
    subst h2
    exact find?_replace_get m.entries k v hf
  case isFalse hf =>
    split at h
    case isTrue hl =>
      injection h with h2
      subst h2
      unfold LMap.get
      rw [List.find?_append]
      have hnone : m.entries.find? (fun e => e.1 == k) = none :=
        Option.not_isSome_iff_eq_none.mp hf
      simp [hnone, List.find?_cons]
    case isFalse =>
      exact absurd h (by simp)

/-- The all-zero IV used for concrete evaluations. -/
def iv0 : List Nat := List.replicate 16 0

/-- Handler state with inbound-direct counter 1 recorded for peer 7. -/
def st3 : CryptoState :=
  ⟨zeroRng, List.replicate 16 0, List.replicate 64 0, ⟨[]⟩, ⟨[(Id.Other 7, 1)]⟩, ⟨[]⟩⟩

/-- A well-formed empty-cleartext envelope carrying counter 1, hmac matching
the constant `idPrims` HMAC. -/
def buf3 : List Nat :=
  VerificationSegment.toBytes ⟨iv0, 1, List.replicate 32 0⟩
    ++ encCipher idPrims iv0 []
    ++ List.replicate (SCEWL_MAX_DATA_SZ - 104) 0

/-- Direct message to us from peer 7, declared body length 104. -/
def msg3 : Message := ⟨Id.Other 9, Id.Other 7, 104⟩

/-- **C3 (code bug)**: a message whose counter *equals* the stored inbound
counter is accepted: `verify` returns true (it rejects only `ctr < prev`,
crypto.rs line 269, although the module doc, lines 122-124, promises to drop
any counter that is not strictly greater) and `decrypt` succeeds.  The
counter carried (1) is not strictly greater than the stored counter (1). -/
theorem c3_equal_counter_accepted :
    ∃ st2 buf2,
      Handler.verify idPrims st3 buf3 msg3 = .ok (true, st3) ∧
      Handler.decrypt idPrims st3 buf3 msg3 = .ok (some 0, st2, buf2) ∧
      (st3.recv_dm_ctr.get msg3.src_id).getD 0 = 1 ∧
      (VerificationSegment.fromBytes buf3).ctr = 1 ∧
      ¬ (VerificationSegment.fromBytes buf3).ctr
          > (st3.recv_dm_ctr.get msg3.src_id).getD 0 := by
  have hdec := decrypt_wellformed idPrims idPrims_ok st3 st3 1
    (by unfold U64; omega) iv0 (List.replicate 32 0) []
    (List.replicate (SCEWL_MAX_DATA_SZ - 104) 0)
    (by simp [iv0]) (by simp) (by norm_num [U64]) msg3 (by decide) rfl
  exact ⟨st3, _, rfl, hdec, rfl, rfl, by decide⟩

/-- **C4 (amended)**: `verify` returns its handler state unchanged at every
return site, but `decrypt` commits the carried counter *unconditionally at
entry*: every `decrypt` call that returns at all — including those that
return `none` — leaves the state produced by the counter-commit step. -/
theorem c4_verify_pure_decrypt_commits :
    (∀ (P : Prims) (st : CryptoState) (data : List Nat) (msg : Message) (b : Bool)
        (stv : CryptoState), Handler.verify P st data msg = .ok (b, stv) → stv = st) ∧
    (∀ (P : Prims) (st : CryptoState) (data : List Nat) (msg : Message) (r : Option Nat)
        (st1 : CryptoState) (buf1 : List Nat),
      Handler.decrypt P st data msg = .ok (r, st1, buf1) →
      decCtrStep st msg (VerificationSegment.fromBytes data).ctr = .ok st1) := by
  constructor
  · intro P st data msg b stv h
    simp only [Handler.verify, bind, Except.bind, pure, Except.pure] at h
    repeat' split at h
    all_goals simp_all
  · intro P st data msg r st1 buf1 h
    rw [Handler.decrypt] at h
    simp only [bind, Except.bind] at h
    cases hdc : decCtrStep st msg (VerificationSegment.fromBytes data).ctr with
    | error e => rw [hdc] at h; exact absurd h (by simp)
    | ok stA =>
      rw [hdc] at h
      repeat' split at h
      all_goals simp_all [pure, Except.pure]

/-- The all-zero buffer and a broadcast descriptor of body length 104, used
as concrete inputs for C4. -/
def zbuf : List Nat := List.replicate SCEWL_MAX_DATA_SZ 0

/-- Broadcast descriptor from peer 5 with declared body length 104. -/
def zmsg : Message := ⟨Id.Broadcast, Id.Other 5, 104⟩

theorem leToNat_replicate_zero (k : Nat) : leToNat (List.replicate k 0) = 0 := by
  induction k with
  | zero => rfl
  | succ k ih => simp [List.replicate_succ, leToNat, ih]

theorem fromBytes_zbuf : VerificationSegment.fromBytes zbuf
    = ⟨List.replicate 16 0, 0, List.replicate 32 0⟩ := by
  unfold VerificationSegment.fromBytes zbuf
  rw [List.take_replicate, List.drop_replicate, List.take_replicate, List.drop_replicate,
    List.take_replicate]
  rw [show min 16 SCEWL_MAX_DATA_SZ = 16 by decide,
    show min 8 (SCEWL_MAX_DATA_SZ - 16) = 8 by decide,
    show min 32 (SCEWL_MAX_DATA_SZ - 24) = 32 by decide,
    leToNat_replicate_zero]

/-- The state after `decrypt` commits counter 0 for peer 5 on the broadcast
map of the fresh handler. -/
def stZ : CryptoState :=
  ⟨zeroRng, List.replicate 16 0, List.replicate 64 0, ⟨[]⟩, ⟨[]⟩, ⟨[(Id.Other 5, 0)]⟩⟩

/-- `decrypt` on the all-zero buffer: the PKCS#7 check fails (`none`), yet
the broadcast counter for peer 5 has been committed. -/
theorem decrypt_zbuf : Handler.decrypt idPrims st0 zbuf zmsg
    = .ok (none, stZ, writeAt VerificationSegment.size (List.replicate 48 0) zbuf) := by
  have hdc : decCtrStep st0 zmsg 0 = .ok stZ := rfl
  have hzlen : zbuf.length = SCEWL_MAX_DATA_SZ := List.length_replicate _ _
  have hreg : (zbuf.drop VerificationSegment.size).take (zmsg.len - VerificationSegment.size)
      = List.replicate 48 0 := by
    unfold zbuf
    rw [List.drop_replicate, List.take_replicate]
    rw [show min (zmsg.len - VerificationSegment.size) (SCEWL_MAX_DATA_SZ
      - VerificationSegment.size) = 48 by decide]
  have hcd : cbcDecrypt idPrims (List.replicate 16 0) (List.replicate 48 0)
      = .ok (List.replicate 48 0, none) := by decide
  rw [Handler.decrypt, fromBytes_zbuf]
  simp only [bind, Except.bind]
  rw [hdc]
  simp only
  rw [if_pos (show VerificationSegment.size ≤ zmsg.len ∧ zmsg.len ≤ zbuf.length by
    rw [hzlen]; exact ⟨by decide, by decide⟩)]
  rw [hreg, hcd]
  rfl

theorem c4_verify_pure_decrypt_commits_witness :
    ∃ st1 buf1 b stv,
      Handler.verify idPrims st0 zbuf zmsg = .ok (b, stv) ∧ stv = st0 ∧
      Handler.decrypt idPrims st0 zbuf zmsg = .ok (none, st1, buf1) ∧
      decCtrStep st0 zmsg (VerificationSegment.fromBytes zbuf).ctr = .ok st1 := by
  have hv : Handler.verify idPrims st0 zbuf zmsg = .ok (true, st0) := by rfl
  have hd := decrypt_zbuf
  exact ⟨stZ, _, true, st0, hv,
    c4_verify_pure_decrypt_commits.1 idPrims st0 zbuf zmsg true st0 hv, hd,
    c4_verify_pure_decrypt_commits.2 idPrims st0 zbuf zmsg none stZ _ hd⟩

/-- **C4 counterexample**: on the all-zero buffer (whose PKCS#7 padding is
invalid, so decryption fails), `decrypt` returns `none` and yet the
broadcast counter map has changed — the state before the call is not
restored, contradicting the claim that a `None` decrypt leaves the maps as
they were. -/
theorem c4_counterexample :
    ∃ st1 buf1,
      Handler.decrypt idPrims st0 zbuf zmsg = .ok (none, st1, buf1) ∧
      st1.brdcst_ctr ≠ st0.brdcst_ctr := by
  refine ⟨stZ, _, decrypt_zbuf, ?_⟩
  decide

/-- **C5 (amended)**: for a direct message with target `Other t`, encrypt
reads the previous value of the outbound-direct counter at the *source* id
(`msg.src_id`, crypto.rs line 325) but stores the incremented value under
the *target* key (`id @ Id::Other(_)`, line 328); the counter written into
the envelope is `send_dm_ctr[src] + 1`, not `send_dm_ctr[t] + 1`. -/
theorem c5_outbound_dm_counter (P : Prims) (hP : PrimsOk P) (st : CryptoState)
    (data : List Nat) (t : Nat) (src : Id) (L : Nat)
    (hdata : data.length = SCEWL_MAX_DATA_SZ) (hL : L ≤ 16535)
    (m2 : LMap)
    (hins : st.send_dm_ctr.insertE (Id.Other t)
      (((st.send_dm_ctr.get src).getD 0 + 1) % U64) = .ok m2) :
    ∃ elen st1 buf1,
      Handler.encrypt P st data ⟨Id.Other t, src, L⟩ = .ok (elen, st1, buf1) ∧
      st1.send_dm_ctr.get (Id.Other t)
        = some (((st.send_dm_ctr.get src).getD 0 + 1) % U64) ∧
      (VerificationSegment.fromBytes buf1).ctr
        = ((st.send_dm_ctr.get src).getD 0 + 1) % U64 := by
  have hcs : encCtrStep st ⟨Id.Other t, src, L⟩
      = .ok (((st.send_dm_ctr.get src).getD 0 + 1) % U64,
          {st with send_dm_ctr := m2}) := by
    simp only [encCtrStep, hins, Except.map]
  have henc := encrypt_eq_ok P hP st data ⟨Id.Other t, src, L⟩ _ hcs
    (by rw [hdata]; exact (fits_iff L).mpr hL)
  refine ⟨_, _, _, henc, ?_, ?_⟩
  · exact LMap.get_insertE _ _ _ _ hins
  · have hmlt : ((st.send_dm_ctr.get src).getD 0 + 1) % U64 < U64 :=
      Nat.mod_lt _ (by unfold U64; omega)
    rw [List.append_assoc,
      verSeg_fromBytes_append _ _ _ _ (fill_fst_length _ _) (hP.hmac_len _ _) hmlt]

/-- Handler state with outbound-direct counter 5 recorded for peer 9. -/
def st5 : CryptoState :=
  ⟨zeroRng, List.replicate 16 0, List.replicate 64 0, ⟨[(Id.Other 9, 5)]⟩, ⟨[]⟩, ⟨[]⟩⟩

/-- **C5 counterexample**: with outbound-direct counter 5 stored under the
target key 9 and a source (5) that has no entry, encrypt stores 1 — not
5 + 1 = 6 as the claim requires — under key 9. -/
theorem c5_counterexample :
    ∃ elen st1 buf1,
      Handler.encrypt idPrims st5 (List.replicate SCEWL_MAX_DATA_SZ 0)
        ⟨Id.Other 9, Id.Other 5, 0⟩ = .ok (elen, st1, buf1) ∧
      (st5.send_dm_ctr.get (Id.Other 9)).getD 0 + 1 = 6 ∧
      st1.send_dm_ctr.get (Id.Other 9) = some 1 ∧
      (1 : Nat) ≠ 6 := by
  have hcs : encCtrStep st5 ⟨Id.Other 9, Id.Other 5, 0⟩
      = .ok (1, ⟨zeroRng, List.replicate 16 0, List.replicate 64 0,
          ⟨[(Id.Other 9, 1)]⟩, ⟨[]⟩, ⟨[]⟩⟩) := rfl
  have henc := encrypt_eq_ok idPrims idPrims_ok st5 (List.replicate SCEWL_MAX_DATA_SZ 0)
    ⟨Id.Other 9, Id.Other 5, 0⟩ _ hcs (by rw [List.length_replicate]; decide)
  exact ⟨_, _, _, henc, by decide, by decide, by norm_num⟩

/-- Witness for the amended C5 statement at a concrete input. -/
theorem c5_outbound_dm_counter_witness :
    ∃ elen st1 buf1,
      Handler.encrypt idPrims st5 (List.replicate SCEWL_MAX_DATA_SZ 0)
        ⟨Id.Other 9, Id.Other 5, 0⟩ = .ok (elen, st1, buf1) ∧
      st1.send_dm_ctr.get (Id.Other 9)
        = some (((st5.send_dm_ctr.get (Id.Other 5)).getD 0 + 1) % U64) ∧
      (VerificationSegment.fromBytes buf1).ctr
        = ((st5.send_dm_ctr.get (Id.Other 5)).getD 0 + 1) % U64 :=
  c5_outbound_dm_counter idPrims idPrims_ok st5 (List.replicate SCEWL_MAX_DATA_SZ 0)
    9 (Id.Other 5) 0 (by simp) (by norm_num) ⟨[(Id.Other 9, 1)]⟩ (by rfl)

theorem idPrims_sha_beq (x y : List Nat) (h : y = List.replicate 32 0) :
    (idPrims.sha x == y) = true := by
  subst h
  rfl

/-- The content segment of the C6 crafted envelope: a content header
declaring `msg_len = 30` (larger than the 8 cleartext bytes an envelope of
body length 104 can carry), followed by valid PKCS#7 padding. -/
def pt6 : List Nat := ContentHeader.toBytes ⟨List.replicate 32 0, 30⟩ ++ List.replicate 8 8

/-- The CBC encryption of `pt6` under the identity block cipher. -/
def ct6 : List Nat := (cbcEncBlocks idPrims.encB iv0 (toBlocks 3 pt6)).flatten

/-- The crafted envelope: verification segment, `ct6`, zero tail — total
length `SCEWL_MAX_DATA_SZ`, declared body length 104. -/
def buf6 : List Nat :=
  VerificationSegment.toBytes ⟨iv0, 1, List.replicate 32 0⟩
    ++ (ct6 ++ List.replicate (SCEWL_MAX_DATA_SZ - 104) 0)

/-- Direct message to us (5) from peer 7, declared body length 104. -/
def msg6 : Message := ⟨Id.Other 5, Id.Other 7, 104⟩

/-- The handler state after `decrypt` commits counter 1 for peer 7. -/
def st6 : CryptoState :=
  ⟨zeroRng, List.replicate 16 0, List.replicate 64 0, ⟨[]⟩, ⟨[(Id.Other 7, 1)]⟩, ⟨[]⟩⟩

/-- **C6 (code bug)**: the decrypted content header declares
`msg_len = 30 > declared_body_len − 56 − 40 = 8`, yet `decrypt` accepts the
message and returns `some 30` — the code compares against
`msg.len - (56 - 40) = msg.len - 16` (crypto.rs line 425) instead of the
documented maximum cleartext `msg.len - 96`. -/
theorem c6_length_check_too_weak :
    ∃ st1 buf1,
      Handler.decrypt idPrims st0 buf6 msg6 = .ok (some 30, st1, buf1) ∧
      30 > msg6.len - 56 - 40 := by
  have hverlen : (VerificationSegment.toBytes ⟨iv0, 1, List.replicate 32 0⟩).length
      = VerificationSegment.size := by decide
  have hct6 : ct6.length = 48 := by decide
  have hdc : decCtrStep st0 msg6 1 = .ok st6 := rfl
  have hfb : VerificationSegment.fromBytes buf6 = ⟨iv0, 1, List.replicate 32 0⟩ :=
    verSeg_fromBytes_append iv0 1 (List.replicate 32 0) _ (by decide) (by decide)
      (by unfold U64; omega)
  have hblen : buf6.length = SCEWL_MAX_DATA_SZ := by
    unfold buf6
    rw [List.length_append, List.length_append, hverlen, hct6, List.length_replicate]
    decide
  have hreg : (buf6.drop VerificationSegment.size).take (msg6.len - VerificationSegment.size)
      = ct6 := by
    unfold buf6
    rw [List.drop_left' hverlen]
    rw [show msg6.len - VerificationSegment.size = 48 by decide]
    rw [List.take_append_of_le_length (by rw [hct6]), List.take_of_length_le (by rw [hct6])]
  have hcd : cbcDecrypt idPrims iv0 ct6
      = .ok (pt6, some (ContentHeader.toBytes ⟨List.replicate 32 0, 30⟩)) := by decide
  have hd2 : writeAt VerificationSegment.size pt6 buf6
      = VerificationSegment.toBytes ⟨iv0, 1, List.replicate 32 0⟩
        ++ (pt6 ++ List.replicate (SCEWL_MAX_DATA_SZ - 104) 0) := by
    unfold buf6
    rw [writeAt, List.take_left' hverlen]
    rw [show VerificationSegment.size + pt6.length = VerificationSegment.size + 48 by decide]
    rw [← List.drop_drop]
    rw [List.drop_left' hverlen, List.drop_left' hct6]
    simp [List.append_assoc]
  have hd2drop : (VerificationSegment.toBytes ⟨iv0, 1, List.replicate 32 0⟩
        ++ (pt6 ++ List.replicate (SCEWL_MAX_DATA_SZ - 104) 0)).drop VerificationSegment.size
      = pt6 ++ List.replicate (SCEWL_MAX_DATA_SZ - 104) 0 := List.drop_left' hverlen
  have hch : ContentHeader.fromBytes (pt6 ++ List.replicate (SCEWL_MAX_DATA_SZ - 104) 0)
      = ⟨List.replicate 32 0, 30⟩ := by
    unfold ContentHeader.fromBytes pt6 ContentHeader.toBytes
    simp only [List.append_assoc]
    rw [List.take_left' (show (List.replicate 32 (0 : Nat)).length = 32 by decide),
      List.drop_left' (show (List.replicate 32 (0 : Nat)).length = 32 by decide),
      List.take_left' (natToLE_length 8 30), leToNat_natToLE, pow256_8,
      Nat.mod_eq_of_lt (show 30 < U64 by unfold U64; omega)]
  have hd2len : (VerificationSegment.toBytes ⟨iv0, 1, List.replicate 32 0⟩
        ++ (pt6 ++ List.replicate (SCEWL_MAX_DATA_SZ - 104) 0)).length
      = SCEWL_MAX_DATA_SZ := by
    rw [List.length_append, List.length_append, hverlen, List.length_replicate]
    decide
  rw [Handler.decrypt, hfb]
  simp only [bind, Except.bind]
  rw [hdc]
  simp only
  rw [if_pos (show VerificationSegment.size ≤ msg6.len ∧ msg6.len ≤ buf6.length by
    rw [hblen]; exact ⟨by decide, by decide⟩)]
  rw [hreg, hcd]
  simp only
  rw [hd2, hd2drop, hch]
  simp only
  set D := VerificationSegment.toBytes ⟨iv0, 1, List.replicate 32 0⟩
    ++ (pt6 ++ List.replicate (SCEWL_MAX_DATA_SZ - 104) 0) with hD
  refine ⟨st6,
    writeAt 0 ((D.drop (VerificationSegment.size + ContentHeader.size)).take 30) D,
    ?_, by decide⟩
  rw [if_neg (show ¬((30 : Nat)
      > msg6.len - (VerificationSegment.size - ContentHeader.size)) by decide)]
  rw [if_pos (show VerificationSegment.size + ContentHeader.size + 30 ≤ D.length by
    rw [hD, hd2len]; decide)]
  rw [if_pos (idPrims_sha_beq _ _ rfl)]
  rfl

/-! ## The controller: channels, framing, dispatch (controller.rs) -/

/-- The three serial channels (`INTF` in interface.rs). -/
inductive INTF where
  | CPU
  | SSS
  | RAD
deriving DecidableEq, Repr

/-- The controller error type (`Error` in controller.rs). -/
inductive CtrlErr where
  | Unknown
  | Already
  | NoMessage
deriving DecidableEq, Repr

mutual

/-- The resynchronisation loop of `Controller::read_msg` (controller.rs lines
362-369): `discard_while (≠ S)` consumes bytes up to and including the first
`S` (83); control then moves to the `S`-run state.  `none` models a read
that blocks forever because the stream holds no further byte. -/
def resync : List Nat → Option (List Nat)
  | [] => none
  | b :: rest => if b = 83 then resyncAfterS rest else resync rest

/-- The `discard_while (= S)` state of the loop: consume the run of `S`s;
the first non-`S` byte either is `C` (67, frame found — the remaining stream
is returned) or restarts the outer loop. -/
def resyncAfterS : List Nat → Option (List Nat)
  | [] => none
  | b :: rest =>
    if b = 83 then resyncAfterS rest
    else if b = 67 then some rest
    else resync rest

end

/-- Index of the first occurrence of the adjacent byte pair `S`,`C` in a
stream. -/
def firstSC : List Nat → Option Nat
  | a :: b :: rest => if a = 83 ∧ b = 67 then some 0 else (firstSC (b :: rest)).map (· + 1)
  | _ => none

theorem resync_drop_aux (n : Nat) : ∀ s : List Nat, s.length ≤ n →
    (∀ k, firstSC s = some k → resync s = some (s.drop (k + 2))) ∧
    (∀ k, firstSC (83 :: s) = some k → resyncAfterS s = some ((83 :: s).drop (k + 2))) := by
  induction n with
  | zero =>
    intro s hs
    have hnil : s = [] := List.length_eq_zero.mp (by omega)
    subst hnil
    constructor
    · intro k hk; simp [firstSC] at hk
    · intro k hk; simp [firstSC] at hk
  | succ n ih =>
    intro s hs
    constructor
    · intro k hk
      match s, hs, hk with
      | a :: rest, hs, hk =>
        have hrest : rest.length ≤ n := by simp at hs; omega
        by_cases ha : a = 83
        · subst ha
          rw [resync, if_pos rfl]
          exact (ih rest hrest).2 k hk
        · rw [resync, if_neg ha]
          match rest, hrest, hk with
          | b :: r2, hrest, hk =>
            rw [firstSC, if_neg (by tauto)] at hk
            rcases Option.map_eq_some'.mp hk with ⟨k2, hk2, hplus⟩
            subst hplus
            rw [(ih (b :: r2) hrest).1 k2 hk2]
            rfl
    · intro k hk
      match s, hs, hk with
      | [], _, hk => simp [firstSC] at hk
      | c :: rest, hs, hk =>
        have hrest : rest.length ≤ n := by simp at hs; omega
        have hcrest : (c :: rest).length ≤ n + 1 := hs
        by_cases hc : c = 83
        · subst hc
          rw [resyncAfterS, if_pos rfl]
          rw [firstSC, if_neg (by omega)] at hk
          rcases Option.map_eq_some'.mp hk with ⟨k2, hk2, hplus⟩
          subst hplus
          rw [(ih rest hrest).2 k2 hk2]
          rfl
        · by_cases hc2 : c = 67
          · subst hc2
            rw [resyncAfterS, if_neg (by omega), if_pos rfl]
            rw [firstSC, if_pos ⟨rfl, rfl⟩] at hk
            injection hk with hk
            subst hk
            rfl
          · rw [resyncAfterS, if_neg hc, if_neg hc2]
            rw [firstSC, if_neg (by tauto)] at hk
            rcases Option.map_eq_some'.mp hk with ⟨k2, hk2, hplus⟩
            subst hplus
            rw [firstSC.eq_def] at hk2
            match rest, hrest, hk2 with
            | [], _, hk2 => simp at hk2
            | d :: r2, hrest, hk2 =>
              simp only [if_neg (show ¬(c = 83 ∧ d = 67) by tauto)] at hk2
              rcases Option.map_eq_some'.mp hk2 with ⟨k3, hk3, hplus2⟩
              subst hplus2
              rw [(ih (d :: r2) hrest).1 k3 hk3]
              rfl

/-- When the stream contains an adjacent `S`,`C`, `firstSC` finds the first
such occurrence. -/
theorem firstSC_of_first_pair : ∀ (s : List Nat) (k : Nat),
    s.get? k = some 83 → s.get? (k + 1) = some 67 →
    (∀ j, j < k → ¬(s.get? j = some 83 ∧ s.get? (j + 1) = some 67)) →
    firstSC s = some k := by
  intro s
  induction s with
  | nil => intro k h83 _ _; simp at h83
  | cons a rest ih =>
    intro k h83 h67 hfirst
    cases k with
    | zero =>
      simp only [List.get?] at h83 h67
      injection h83 with h83
      subst h83
      match rest, h67 with
      | b :: r2, h67 =>
        simp only [List.get?] at h67
        injection h67 with h67
        subst h67
        rw [firstSC, if_pos ⟨rfl, rfl⟩]
    | succ k2 =>
      simp only [List.get?] at h83 h67
      match rest, h83 with
      | b :: r2, h83 =>
        rw [firstSC, if_neg (by
          intro hab
          exact hfirst 0 (by omega) (by simp [List.get?, hab.1, hab.2]))]
        rw [ih k2 h83 h67 (fun j hj hpair =>
          hfirst (j + 1) (by omega) (by simpa [List.get?] using hpair))]
        rfl

/-- **C8 (confirmed)**: for every input stream with an occurrence of `S`
immediately followed by `C`, the resynchronisation loop of
`Controller::read_msg` terminates (returns, rather than blocking) and
consumes the stream exactly up to and including the `C` of the *first* such
occurrence: the unconsumed remainder is `s.drop (k + 2)` where `k` is the
position of that first occurrence. -/
theorem c8_resync_consumes_to_first_SC (s : List Nat) (k : Nat)
    (h83 : s.get? k = some 83) (h67 : s.get? (k + 1) = some 67)
    (hfirst : ∀ j, j < k → ¬(s.get? j = some 83 ∧ s.get? (j + 1) = some 67)) :
    resync s = some (s.drop (k + 2)) :=
  (resync_drop_aux s.length s le_rfl).1 k (firstSC_of_first_pair s k h83 h67 hfirst)

/-- Witness for C8 at a concrete noisy stream: `X S A S S C tail`. -/
theorem c8_resync_consumes_to_first_SC_witness :
    resync [1, 83, 9, 83, 83, 67, 7, 7] = some ([1, 83, 9, 83, 83, 67, 7, 7].drop (4 + 2)) :=
  c8_resync_consumes_to_first_SC [1, 83, 9, 83, 83, 67, 7, 7] 4 (by rfl) (by rfl)
    (by decide)

/-- Result type of a `read_msg` step: the outcome, the data buffer, the
unconsumed stream, and the crypto handler state handed back by `verify`. -/
def ReadRes : Type :=
  Option (Except Unit ((Except CtrlErr Message) × List Nat × List Nat ×
    Option CryptoState))

/-- The branch of `read_msg` for an encrypted channel (controller.rs lines
396-406): read the 56-byte verification segment into the front of the
buffer, wrap-subtract it from the declared length (usize arithmetic in
release mode), call `verify`, and on failure discard the remainder; the
body read and the final slice bound check (line 411) follow. -/
def read_msg_rad (P : Prims) (c : CryptoState) (tgt src : Id) (hlen : Nat)
    (buf s : List Nat) : ReadRes :=
  if VerificationSegment.size ≤ s.length then
    match Handler.verify P c (writeAt 0 (s.take VerificationSegment.size) buf)
        ⟨tgt, src, hlen⟩ with
    | .error _ => some (.error ())
    | .ok bc =>
      if bc.1 then
        if VerificationSegment.size + (hlen + (U64 - VerificationSegment.size)) % U64
            ≤ buf.length then
          if (hlen + (U64 - VerificationSegment.size)) % U64
              ≤ (s.drop VerificationSegment.size).length then
            some (.ok (.ok ⟨tgt, src, hlen⟩,
              writeAt VerificationSegment.size
                ((s.drop VerificationSegment.size).take
                  ((hlen + (U64 - VerificationSegment.size)) % U64))
                (writeAt 0 (s.take VerificationSegment.size) buf),
              (s.drop VerificationSegment.size).drop
                ((hlen + (U64 - VerificationSegment.size)) % U64), some bc.2))
          else none
        else some (.error ())
      else
        some (.ok (.error .Unknown, writeAt 0 (s.take VerificationSegment.size) buf,
          (s.drop VerificationSegment.size).drop
            ((hlen + (U64 - VerificationSegment.size)) % U64), some bc.2))
  else none

/-- `read_msg` after resynchronisation (controller.rs lines 371-431): read
the 6 remaining header bytes, decode target, source and declared length,
apply the self-message drop (lines 375-378), the oversize drop (lines
382-385), and dispatch to the encrypted-channel branch or a plain body
read.  `buf` is the already zero-filled data buffer. -/
def read_msg_after (P : Prims) (ownId : Id) (crypto : Option CryptoState)
    (intf : INTF) (len : Nat) (buf s : List Nat) : ReadRes :=
  if 6 ≤ s.length then
    if intf ≠ INTF.CPU ∧ Id.ofU16 (leToNat ((s.drop 2).take 2)) = ownId then
      some (.ok (.error .NoMessage, buf, s.drop 6, crypto))
    else
      if leToNat ((s.drop 4).take 2) > len then
        some (.ok (.error .NoMessage, buf,
          (s.drop 6).drop (leToNat ((s.drop 4).take 2)), crypto))
      else
        if intf = INTF.RAD ∧ Id.ofU16 (leToNat ((s.drop 2).take 2)) ≠ Id.FAA then
          match crypto with
          | none => some (.ok (.error .Unknown, buf, s.drop 6, crypto))
          | some c =>
            read_msg_rad P c (Id.ofU16 (leToNat (s.take 2)))
              (Id.ofU16 (leToNat ((s.drop 2).take 2)))
              (leToNat ((s.drop 4).take 2)) buf (s.drop 6)
        else
          if leToNat ((s.drop 4).take 2) ≤ (s.drop 6).length then
            some (.ok (.ok ⟨Id.ofU16 (leToNat (s.take 2)),
                Id.ofU16 (leToNat ((s.drop 2).take 2)),
                leToNat ((s.drop 4).take 2)⟩,
              writeAt 0 ((s.drop 6).take (leToNat ((s.drop 4).take 2))) buf,
              (s.drop 6).drop (leToNat ((s.drop 4).take 2)), crypto))
          else none
  else none

/-- `Controller::read_msg` (controller.rs lines 356-431) over a finite
stream of available bytes; the secure crypto handler's `verification_len`
is the 56-byte verification segment.  The outer `none` models a blocking
read against an exhausted stream (`readb(true)` spins and `intf.read`
never fails); the inner `.error` models a panic (a slice out of range). -/
def read_msg (P : Prims) (ownId : Id) (crypto : Option CryptoState) (intf : INTF)
    (len : Nat) (buf s : List Nat) : ReadRes :=
  if len ≤ buf.length then
    Option.bind (resync s) (fun t =>
      read_msg_after P ownId crypto intf len
        (writeAt 0 (List.replicate len 0) buf) t)
  else some (.error ())

theorem decode_take_append (h6 rest : List Nat) (i k : Nat) (hi : i + k ≤ h6.length) :
    ((h6 ++ rest).drop i).take k = (h6.drop i).take k := by
  rw [List.drop_append_eq_append_drop,
    List.take_append_of_le_length (by rw [List.length_drop]; omega)]

/-- The self-message drop of `read_msg`: on any non-CPU channel, a header
whose source is the controller's own id makes `read_msg` return
`NoMessage` right after the 8 header bytes — the buffer holds only the
initial zero fill and the declared body is left unconsumed in the
stream. -/
theorem read_msg_self_drop (P : Prims) (ownId : Id) (crypto : Option CryptoState)
    (intf : INTF) (hintf : intf ≠ INTF.CPU) (len : Nat) (buf s hdr6 rest : List Nat)
    (hlen : len ≤ buf.length) (hres : resync s = some (hdr6 ++ rest))
    (hhdr : hdr6.length = 6)
    (hsrc : Id.ofU16 (leToNat ((hdr6.drop 2).take 2)) = ownId) :
    read_msg P ownId crypto intf len buf s
      = some (.ok (.error .NoMessage, writeAt 0 (List.replicate len 0) buf, rest,
          crypto)) := by
  rw [read_msg, if_pos hlen, hres, Option.some_bind, read_msg_after.eq_def]
  rw [if_pos (show 6 ≤ (hdr6 ++ rest).length by simp [hhdr])]
  rw [decode_take_append hdr6 rest 2 2 (by omega)]
  rw [if_pos ⟨hintf, hsrc⟩]
  rw [List.drop_left' hhdr]

/-- **C10 (confirmed)**: the self-source drop applies to the SSS channel as
well: any header read on SSS whose source equals the controller's own id
makes `read_msg` return `NoMessage`; the buffer holds only the zero fill
(the body is never read into it) and the body bytes remain unconsumed. -/
theorem c10_sss_self_message_dropped (P : Prims) (ownId : Id)
    (crypto : Option CryptoState) (len : Nat) (buf s hdr6 rest : List Nat)
    (hlen : len ≤ buf.length) (hres : resync s = some (hdr6 ++ rest))
    (hhdr : hdr6.length = 6)
    (hsrc : Id.ofU16 (leToNat ((hdr6.drop 2).take 2)) = ownId) :
    read_msg P ownId crypto INTF.SSS len buf s
      = some (.ok (.error .NoMessage, writeAt 0 (List.replicate len 0) buf, rest,
          crypto)) :=
  read_msg_self_drop P ownId crypto INTF.SSS (by simp) len buf s hdr6 rest
    hlen hres hhdr hsrc

/-- Witness for C10: an SSS response frame whose source field is the
device's own id (5) is dropped with its 2-byte body left in the stream. -/
theorem c10_sss_self_message_dropped_witness :
    read_msg idPrims (Id.Other 5) none INTF.SSS 116 (List.replicate SCEWL_MAX_DATA_SZ 0)
        [83, 67, 9, 0, 5, 0, 2, 0, 77, 88]
      = some (.ok (.error .NoMessage,
          writeAt 0 (List.replicate 116 0) (List.replicate SCEWL_MAX_DATA_SZ 0),
          [77, 88], none)) :=
  c10_sss_self_message_dropped idPrims (Id.Other 5) none 116
    (List.replicate SCEWL_MAX_DATA_SZ 0) [83, 67, 9, 0, 5, 0, 2, 0, 77, 88]
    [9, 0, 5, 0, 2, 0] [77, 88]
    (by rw [List.length_replicate]; decide)
    (by simp [resync, resyncAfterS]) (by decide) (by decide)

/-- **C7 (amended)**: a header read on the RAD channel whose source id
equals the controller's own id makes `read_msg` return `NoMessage`
immediately — the declared payload is *not* discarded from the channel (the
`return` at controller.rs line 377 precedes any `discard`), and nothing is
forwarded.  The stream after the call still begins with the declared
body. -/
theorem c7_rad_self_message_dropped (P : Prims) (ownId : Id)
    (crypto : Option CryptoState) (len : Nat) (buf s hdr6 rest : List Nat)
    (hlen : len ≤ buf.length) (hres : resync s = some (hdr6 ++ rest))
    (hhdr : hdr6.length = 6)
    (hsrc : Id.ofU16 (leToNat ((hdr6.drop 2).take 2)) = ownId) :
    read_msg P ownId crypto INTF.RAD len buf s
      = some (.ok (.error .NoMessage, writeAt 0 (List.replicate len 0) buf, rest,
          crypto)) :=
  read_msg_self_drop P ownId crypto INTF.RAD (by simp) len buf s hdr6 rest
    hlen hres hhdr hsrc

/-- Witness for the amended C7 at a concrete RAD frame. -/
theorem c7_rad_self_message_dropped_witness :
    read_msg idPrims (Id.Other 5) none INTF.RAD 16640 (List.replicate SCEWL_MAX_DATA_SZ 0)
        [83, 67, 9, 0, 5, 0, 2, 0, 77, 88]
      = some (.ok (.error .NoMessage,
          writeAt 0 (List.replicate 16640 0) (List.replicate SCEWL_MAX_DATA_SZ 0),
          [77, 88], none)) :=
  c7_rad_self_message_dropped idPrims (Id.Other 5) none 16640
    (List.replicate SCEWL_MAX_DATA_SZ 0) [83, 67, 9, 0, 5, 0, 2, 0, 77, 88]
    [9, 0, 5, 0, 2, 0] [77, 88]
    (by rw [List.length_replicate]; decide)
    (by simp [resync, resyncAfterS]) (by decide) (by decide)

/-- **C7 counterexample**: a RAD frame from the device's own id with
declared length 2 and body `[77, 88]`: `read_msg` returns `NoMessage` but
the body bytes are still in the channel — they are not discarded as the
claim states (a discard of the declared length would have left the stream
empty). -/
theorem c7_counterexample :
    read_msg idPrims (Id.Other 5) none INTF.RAD 16640 (List.replicate SCEWL_MAX_DATA_SZ 0)
        [83, 67, 9, 0, 5, 0, 2, 0, 77, 88]
      = some (.ok (.error .NoMessage,
          writeAt 0 (List.replicate 16640 0) (List.replicate SCEWL_MAX_DATA_SZ 0),
          [77, 88], none)) ∧
    [77, 88] ≠ ([] : List Nat) := by
  refine ⟨?_, by decide⟩
  exact read_msg_self_drop idPrims (Id.Other 5) none INTF.RAD (by simp) 16640
    (List.replicate SCEWL_MAX_DATA_SZ 0) [83, 67, 9, 0, 5, 0, 2, 0, 77, 88]
    [9, 0, 5, 0, 2, 0] [77, 88]
    (by rw [List.length_replicate]; decide)
    (by simp [resync, resyncAfterS]) (by decide) (by decide)

/-- SSS operations (`SSSOp` in controller.rs).  The i16 wire values are read
and written here as the unsigned 16-bit image of the two little-endian
bytes (`Already = -1` is 65535). -/
inductive SSSOp where
  | Already
  | Register
  | Deregister
  | Unknown
deriving DecidableEq, Repr

/-- `impl From<i16> for SSSOp`, on the u16 reading of the two wire bytes. -/
def SSSOp.ofU16 (n : Nat) : SSSOp :=
  if n = 65535 then .Already else if n = 0 then .Register
  else if n = 1 then .Deregister else .Unknown

/-- `impl From<SSSOp> for i16`, as the u16 image of the i16 value. -/
def SSSOp.toU16 : SSSOp → Nat
  | .Already => 65535
  | .Register => 0
  | .Deregister => 1
  | .Unknown => 2

/-- The controller state for the run-loop model: the shared data buffer, one
finite input stream and one output transcript per interface, the optional
crypto handler, and the 64-byte registration secret. -/
structure Ctrl where
  ownId : Id
  buf : List Nat
  cpuIn : List Nat
  sssIn : List Nat
  radIn : List Nat
  cpuOut : List Nat
  sssOut : List Nat
  radOut : List Nat
  crypto : Option CryptoState
  secret : List Nat

/-- `Controller::send_msg` (controller.rs lines 440-456): write the 8 header
bytes and then the first `msg.len` bytes of the data buffer to the given
interface. -/
def Ctrl.send (c : Ctrl) (intf : INTF) (m : Message) : Ctrl :=
  match intf with
  | .CPU => {c with cpuOut := c.cpuOut ++ headerBytes m ++ c.buf.take m.len}
  | .SSS => {c with sssOut := c.sssOut ++ headerBytes m ++ c.buf.take m.len}
  | .RAD => {c with radOut := c.radOut ++ headerBytes m ++ c.buf.take m.len}

/-- The state reached by a run-loop fragment: the controller either blocks
forever inside a read, panics, or completes the fragment. -/
inductive StepOut where
  | blocked (c : Ctrl)
  | panicked (c : Ctrl)
  | done (c : Ctrl)

/-- The controller state carried by a `StepOut`. -/
def StepOut.state : StepOut → Ctrl
  | .blocked c => c
  | .panicked c => c
  | .done c => c

/-- `SecureSSSMessage::to_bytes` (secure/auth.rs lines 49-58): device id,
operation, then the 64-byte shared secret. -/
def secureSSSMessageBytes (c : Ctrl) (op : SSSOp) : List Nat :=
  natToLE 2 c.ownId.toU16 ++ natToLE 2 op.toU16 ++ c.secret

/-- The first half of an SSS exchange (secure/auth.rs lines 121-140 and
179-201): serialise the secure SSS message into the data buffer and send it
to the SSS with an 8-byte header and a 68-byte body. -/
def sssSendReg (op : SSSOp) (c : Ctrl) : Ctrl :=
  Ctrl.send {c with buf := writeAt 0 (secureSSSMessageBytes c op) c.buf}
    INTF.SSS ⟨Id.SSS, c.ownId, 68⟩

/-- The shared body of `sss_register` and `sss_deregister` (secure/auth.rs):
send the secure SSS message, read the response with `read_msg(SSS, 116)`,
parse it with `SecureSSSResponse::from_bytes` (needs at least 4 bytes),
notify the CPU with the 4-byte `SSSMessage`, and hand back the parsed
device id, operation, response length and response bytes. -/
def sssExchange (P : Prims) (op : SSSOp) (c : Ctrl) :
    StepOut × Option (Id × SSSOp × Nat × List Nat) :=
  match read_msg P c.ownId c.crypto INTF.SSS 116 (sssSendReg op c).buf
      (sssSendReg op c).sssIn with
  | none => (.blocked (sssSendReg op c), none)
  | some (.error _) => (.panicked (sssSendReg op c), none)
  | some (.ok (.error _, b, s, cr)) =>
    (.done {sssSendReg op c with buf := b, sssIn := s, crypto := cr}, none)
  | some (.ok (.ok m, b, s, cr)) =>
    if m.len < 4 then
      (.done {sssSendReg op c with buf := b, sssIn := s, crypto := cr}, none)
    else
      (.done (Ctrl.send {sssSendReg op c with
          buf := writeAt 0 (natToLE 2 (Id.ofU16 (leToNat (b.take 2))).toU16 ++
            natToLE 2 (SSSOp.ofU16 (leToNat ((b.drop 2).take 2))).toU16) b,
          sssIn := s, crypto := cr}
        INTF.CPU ⟨c.ownId, Id.SSS, 4⟩),
       some (Id.ofU16 (leToNat (b.take 2)),
         SSSOp.ofU16 (leToNat ((b.drop 2).take 2)), m.len, b))

/-- `AuthHandler::sss_register` (secure/auth.rs lines 117-176): a crypto
handler is produced exactly when the response carries the secrets, i.e.
when the response length is exactly `SecureSSSResponse::size()` = 116; the
HC-128 generator seeded from the response seed is given by `hc`. -/
def sss_register (hc : List Nat → RngSt) (P : Prims) (c : Ctrl) :
    StepOut × Option CryptoState :=
  match sssExchange P SSSOp.Register c with
  | (out, none) => (out, none)
  | (out, some (_, _, len, body)) =>
    (out,
      if len = 116 then
        some (CryptoState.new (hc ((body.drop 20).take 32)) ((body.drop 4).take 16)
          ((body.drop 52).take 64))
      else none)

/-- `AuthHandler::sss_deregister` (secure/auth.rs lines 178-241): succeeds
exactly when the parsed response operation is `Deregister`. -/
def sss_deregister (P : Prims) (c : Ctrl) : StepOut × Bool :=
  match sssExchange P SSSOp.Deregister c with
  | (out, none) => (out, false)
  | (out, some (_, rop, _, _)) => (out, rop == SSSOp.Deregister)

/-- `Controller::handle_registration` (controller.rs lines 611-626): parse
the `SSSMessage` at the front of the data buffer and dispatch on its
operation; a successful registration installs the crypto handler and a
successful deregistration removes it. -/
def handle_registration (hc : List Nat → RngSt) (P : Prims) (c : Ctrl) : StepOut :=
  match SSSOp.ofU16 (leToNat ((c.buf.drop 2).take 2)) with
  | SSSOp.Register =>
    match sss_register hc P c with
    | (StepOut.done c', some h) => StepOut.done {c' with crypto := some h}
    | (StepOut.done c', none) => StepOut.done c'
    | (out, _) => out
  | SSSOp.Deregister =>
    match sss_deregister P c with
    | (StepOut.done c', true) => StepOut.done {c' with crypto := none}
    | (StepOut.done c', false) => StepOut.done c'
    | (out, _) => out
  | _ => StepOut.done c

/-- One iteration of the outer run loop (controller.rs lines 636-640), which
is the whole per-iteration behaviour while the controller is unregistered
(the inner loop at line 642 is guarded by `registered()`): read a CPU
message of up to `SCEWL_MAX_DATA_SZ` bytes and, if its target is the SSS,
run the registration handler. -/
def unregStep (hc : List Nat → RngSt) (P : Prims) (c : Ctrl) : StepOut :=
  match read_msg P c.ownId c.crypto INTF.CPU SCEWL_MAX_DATA_SZ c.buf c.cpuIn with
  | none => .blocked c
  | some (.error _) => .panicked c
  | some (.ok (.error _, b, s, cr)) => .done {c with buf := b, cpuIn := s, crypto := cr}
  | some (.ok (.ok m, b, s, cr)) =>
    if m.tgt_id = Id.SSS then
      handle_registration hc P {c with buf := b, cpuIn := s, crypto := cr}
    else
      .done {c with buf := b, cpuIn := s, crypto := cr}

/-- `new` appends to `old`. -/
def Appends (old new : List Nat) : Prop := ∃ t, new = old ++ t

theorem Appends.self (l : List Nat) : Appends l l := ⟨[], by simp⟩

theorem Appends.comp {a b c : List Nat} (h1 : Appends a b) (h2 : Appends b c) :
    Appends a c := by
  obtain ⟨t, ht⟩ := h1
  obtain ⟨u, hu⟩ := h2
  exact ⟨t ++ u, by rw [hu, ht, List.append_assoc]⟩

/-- `r` is reachable from `c` by output writes to CPU and SSS only. -/
def OutOk (c r : Ctrl) : Prop :=
  r.radOut = c.radOut ∧ Appends c.cpuOut r.cpuOut ∧ Appends c.sssOut r.sssOut

theorem outOk_refl (c : Ctrl) : OutOk c c :=
  ⟨rfl, Appends.self _, Appends.self _⟩

theorem outOk_trans {a b c : Ctrl} (h1 : OutOk a b) (h2 : OutOk b c) : OutOk a c :=
  ⟨h2.1.trans h1.1, h1.2.1.comp h2.2.1, h1.2.2.comp h2.2.2⟩

theorem outOk_send_cpu (c : Ctrl) (m : Message) : OutOk c (Ctrl.send c INTF.CPU m) :=
  ⟨rfl, ⟨headerBytes m ++ c.buf.take m.len, List.append_assoc _ _ _⟩, Appends.self _⟩

theorem outOk_send_sss (c : Ctrl) (m : Message) : OutOk c (Ctrl.send c INTF.SSS m) :=
  ⟨rfl, Appends.self _, ⟨headerBytes m ++ c.buf.take m.len, List.append_assoc _ _ _⟩⟩

theorem outOk_sssSendReg (op : SSSOp) (c : Ctrl) : OutOk c (sssSendReg op c) :=
  outOk_trans (outOk_refl c) (outOk_send_sss _ _)

theorem outOk_sssExchange (P : Prims) (op : SSSOp) (c : Ctrl) :
    OutOk c ((sssExchange P op c).1.state) := by
  unfold sssExchange
  split
  · exact outOk_sssSendReg op c
  · exact outOk_sssSendReg op c
  · exact outOk_sssSendReg op c
  · split
    · exact outOk_sssSendReg op c
    · exact outOk_trans (outOk_sssSendReg op c) (outOk_send_cpu _ _)

theorem sss_register_fst (hc : List Nat → RngSt) (P : Prims) (c : Ctrl) :
    (sss_register hc P c).1 = (sssExchange P SSSOp.Register c).1 := by
  unfold sss_register
  rcases sssExchange P SSSOp.Register c with ⟨out, _ | ⟨a, rop, len, body⟩⟩
  · rfl
  · rfl

theorem sss_deregister_fst (P : Prims) (c : Ctrl) :
    (sss_deregister P c).1 = (sssExchange P SSSOp.Deregister c).1 := by
  unfold sss_deregister
  rcases sssExchange P SSSOp.Deregister c with ⟨out, _ | ⟨a, rop, len, body⟩⟩
  · rfl
  · rfl

theorem outOk_sss_register (hc : List Nat → RngSt) (P : Prims) (c : Ctrl) :
    OutOk c ((sss_register hc P c).1.state) := by
  rw [sss_register_fst]
  exact outOk_sssExchange P SSSOp.Register c

theorem outOk_sss_deregister (P : Prims) (c : Ctrl) :
    OutOk c ((sss_deregister P c).1.state) := by
  rw [sss_deregister_fst]
  exact outOk_sssExchange P SSSOp.Deregister c

theorem outOk_handle_registration (hc : List Nat → RngSt) (P : Prims) (c : Ctrl) :
    OutOk c ((handle_registration hc P c).state) := by
  unfold handle_registration
  cases SSSOp.ofU16 (leToNat ((c.buf.drop 2).take 2)) with
  | Register =>
    have h := outOk_sss_register hc P c
    rcases hreg : sss_register hc P c with ⟨out, res⟩
    rw [hreg] at h
    cases out <;> cases res <;> exact h
  | Deregister =>
    have h := outOk_sss_deregister P c
    rcases hreg : sss_deregister P c with ⟨out, res⟩
    rw [hreg] at h
    cases out <;> cases res <;> exact h
  | Already => exact outOk_refl c
  | Unknown => exact outOk_refl c

/-- **C9 (confirmed)**: while the crypto handler is absent, a full iteration
of the controller's run loop — whether it completes, blocks in a read, or
panics — never writes a byte to the RAD channel; the CPU and SSS
transcripts are only appended to.  (While unregistered the inner loop at
controller.rs line 642 never runs, so one outer iteration — a CPU read
plus, for an SSS-targeted message, the registration exchange — is the
whole step.) -/
theorem c9_unregistered_never_writes_rad (hc : List Nat → RngSt) (P : Prims)
    (c : Ctrl) (hun : c.crypto = none) :
    ((unregStep hc P c).state).radOut = c.radOut ∧
    (∃ a, ((unregStep hc P c).state).cpuOut = c.cpuOut ++ a) ∧
    (∃ b, ((unregStep hc P c).state).sssOut = c.sssOut ++ b) := by
  have h : OutOk c ((unregStep hc P c).state) := by
    unfold unregStep
    rcases read_msg P c.ownId c.crypto INTF.CPU SCEWL_MAX_DATA_SZ c.buf c.cpuIn with
      _ | (_ | ⟨_ | m, b, s, cr⟩)
    · exact outOk_refl c
    · exact outOk_refl c
    · exact outOk_refl c
    · refine (?_ : OutOk c ((if m.tgt_id = Id.SSS then
          handle_registration hc P ⟨c.ownId, b, s, c.sssIn, c.radIn, c.cpuOut,
            c.sssOut, c.radOut, cr, c.secret⟩
        else StepOut.done ⟨c.ownId, b, s, c.sssIn, c.radIn, c.cpuOut,
            c.sssOut, c.radOut, cr, c.secret⟩).state))
      split
      · exact outOk_trans (outOk_refl c) (outOk_handle_registration hc P _)
      · exact outOk_refl c
  exact ⟨h.1, h.2.1, h.2.2⟩

/-- A concrete unregistered controller with empty streams. -/
def c9c : Ctrl :=
  ⟨Id.Other 5, List.replicate SCEWL_MAX_DATA_SZ 0, [], [], [], [], [], [], none,
    List.replicate 64 0⟩

/-- Witness for C9 at a concrete unregistered controller. -/
theorem c9_unregistered_never_writes_rad_witness :
    c9c.crypto = none ∧
    (((unregStep (fun _ => zeroRng) idPrims c9c).state).radOut = c9c.radOut ∧
     (∃ a, ((unregStep (fun _ => zeroRng) idPrims c9c).state).cpuOut = c9c.cpuOut ++ a) ∧
     (∃ b, ((unregStep (fun _ => zeroRng) idPrims c9c).state).sssOut = c9c.sssOut ++ b)) :=
  ⟨rfl, c9_unregistered_never_writes_rad (fun _ => zeroRng) idPrims c9c rfl⟩

end Scewl